import Mathlib

set_option linter.unusedSectionVars false

/-!
Shallow embedding of `src/lib/path/astar.rs` (repository `path_demo`): a
generic best-first (A*-family) search engine.  States, controls, costs and
discretization keys are type parameters; the caller-supplied `Model` and
`Sampler` collaborators are pure functions.  Rust's `BinaryHeap<Node>` is
modelled as a list together with `popMin`, which removes the element that is
maximal for the reversed-on-`f` order of `impl Ord for Id` (that is, the
element of least `f`, first occurrence winning ties).  Rust's
`HashMap<Id, Node>` is modelled as an association list whose lookup succeeds
when both the integer id (the `Hash` impl feeds only `self.id`; the hasher is
taken to be injective, so the id plays the role of the bucket) and the `f`
value (the `PartialEq` impl compares only `self.f`) coincide.
`HashMap<Position, Id>` has consistent `Hash`/`Eq` over the key and is an
association list keyed by the position.
-/

namespace AStarSpec

/-- Translation of `struct Id` of `astar.rs`: integer identity `id`, estimated
total cost `f`, and arrival cost `g`. -/
structure Id (Cost : Type) where
  id : Nat
  f : Cost
  g : Cost
  deriving DecidableEq, Repr

/-- Translation of `struct Node` of `astar.rs`. -/
structure Node (St Ct Cost : Type) where
  id : Id Cost
  state : St
  control : Ct
  deriving DecidableEq, Repr

/-- Modelled from the spec: `Trajectory` is declared in the parent module of
`astar.rs` (not under `src/`); its shape, the total cost plus the ordered
`(state, control)` list, is fixed by its uses in `unwind_trajectory` and
`optimize` and by section 6 of the spec. -/
structure Trajectory (St Ct Cost : Type) where
  cost : Cost
  trajectory : List (St × Ct)
  deriving DecidableEq, Repr

/-- Modelled from the spec: the single error kind of the engine
(section 7 of the spec: "Single error kind: Unreachable"). -/
inductive PathFindingErr where
  | unreachable
  deriving DecidableEq, Repr

/-- Modelled from the spec: the result type of the planners, with the
`Final` / `Intermediate` / `Err` cases used in `next_trajectory` and
`optimize`. -/
inductive PathResult (St Ct Cost : Type) where
  | final (t : Trajectory St Ct Cost)
  | intermediate (t : Trajectory St Ct Cost)
  | err (e : PathFindingErr)
  deriving DecidableEq, Repr

/-- Translation of the `Model`/`HeuristicModel` trait bound (with the
`grid_position` method of the `State` trait folded in as a field): the pure
collaborator supplying transition, cost, heuristic, goal test and
discretization key. -/
structure Model (St Ct Cost Pos : Type) where
  integrate : St → Ct → Option St
  cost : St → St → Cost
  heuristic : St → St → Cost
  converge : St → St → Bool
  grid_position : St → Pos

/-- Translation of `struct AStar`: open set, parent-link table, best-per-cell
map, and the monotonic identity counter. -/
structure AStar (St Ct Cost Pos : Type) where
  queue : List (Node St Ct Cost)
  parent_map : List (Id Cost × Node St Ct Cost)
  grid : List (Pos × Id Cost)
  id_counter : Nat
  deriving DecidableEq, Repr

variable {St Ct Cost Pos : Type}

/-- Embedding of `impl Hash for Id`: the hash feeds only the integer id. -/
def idHash (a : Id Cost) : Nat := a.id

/-- Embedding of `impl PartialEq for Id`: equality compares only `f`. -/
def idEq [DecidableEq Cost] (a b : Id Cost) : Bool := decide (a.f = b.f)

/-- Lookup discriminator for `HashMap<Id, _>`: an entry keyed by `a` is found
under query `b` when the hash buckets agree (integer ids equal, for an
injective hasher) and the keys are `PartialEq`-equal (`f` fields equal). -/
def idKeyMatches [DecidableEq Cost] (a b : Id Cost) : Bool :=
  decide (a.id = b.id) && idEq a b

/-- Model of `HashMap<Id, Node>::get`. -/
def pmGet [DecidableEq Cost] : List (Id Cost × Node St Ct Cost) → Id Cost → Option (Node St Ct Cost)
  | [], _ => none
  | e :: rest, k => if idKeyMatches e.1 k then some e.2 else pmGet rest k

/-- Model of `HashMap<Id, Node>::insert`: replace the first matching entry,
otherwise append. -/
def pmInsert [DecidableEq Cost] :
    List (Id Cost × Node St Ct Cost) → Id Cost → Node St Ct Cost → List (Id Cost × Node St Ct Cost)
  | [], k, v => [(k, v)]
  | e :: rest, k, v => if idKeyMatches e.1 k then (k, v) :: rest else e :: pmInsert rest k v

/-- Model of `HashMap<Position, Id>::get` (consistent key hashing). -/
def gridGet [DecidableEq Pos] : List (Pos × Id Cost) → Pos → Option (Id Cost)
  | [], _ => none
  | e :: rest, p => if e.1 = p then some e.2 else gridGet rest p

/-- Model of the occupied/vacant `Entry` write on `HashMap<Position, Id>`. -/
def gridInsert [DecidableEq Pos] : List (Pos × Id Cost) → Pos → Id Cost → List (Pos × Id Cost)
  | [], p, v => [(p, v)]
  | e :: rest, p, v => if e.1 = p then (p, v) :: rest else e :: gridInsert rest p v

/-- Model of `BinaryHeap<Node>::pop`.  `impl Ord for Id` (hence for `Node`)
compares `other.f.cmp(&self.f)`, so the max-heap pop returns an element of
least `f`; ties are broken deterministically here by keeping the earliest
such element. -/
def popMin [LinearOrder Cost] :
    List (Node St Ct Cost) → Option (Node St Ct Cost × List (Node St Ct Cost))
  | [] => none
  | n :: rest =>
    match popMin rest with
    | none => some (n, [])
    | some (m, rest') => if n.id.f ≤ m.id.f then some (n, rest) else some (m, n :: rest')

variable [LinearOrder Cost] [Add Cost] [Inhabited Cost] [Inhabited Ct] [DecidableEq Pos]

/-- Child node built at lines 178-185 of `astar.rs`: identity `counter + 1`,
`g` equal to the parent's `g` plus the edge cost, `f` equal to `g` plus the
heuristic at the child. -/
def childNode (m : Model St Ct Cost Pos) (goal : St) (current : Node St Ct Cost)
    (control : Ct) (child_state : St) (counter : Nat) : Node St Ct Cost :=
  ⟨⟨counter + 1,
    (current.id.g + m.cost current.state child_state) + m.heuristic child_state goal,
    current.id.g + m.cost current.state child_state⟩, child_state, control⟩

/-- Translation of the body of the `for control in sampler.sample(..)` loop of
`AStar::step` for one sampled control: attempt the transition, burn a fresh
identity, build the child, and run the dominance check against the
best-per-cell map. -/
def processControl (m : Model St Ct Cost Pos) (goal : St) (current : Node St Ct Cost)
    (control : Ct) (s : AStar St Ct Cost Pos) : AStar St Ct Cost Pos :=
  match m.integrate current.state control with
  | none => s
  | some child_state =>
    let child := childNode m goal current control child_state s.id_counter
    match gridGet s.grid (m.grid_position child.state) with
    | some best =>
      if best.g ≤ child.id.g then { s with id_counter := s.id_counter + 1 }
      else { s with id_counter := s.id_counter + 1,
                    grid := gridInsert s.grid (m.grid_position child.state) child.id,
                    parent_map := pmInsert s.parent_map child.id current,
                    queue := child :: s.queue }
    | none => { s with id_counter := s.id_counter + 1,
                       grid := gridInsert s.grid (m.grid_position child.state) child.id,
                       parent_map := pmInsert s.parent_map child.id current,
                       queue := child :: s.queue }

/-- Iteration of `processControl` over the sampled control sequence. -/
def stepLoop (m : Model St Ct Cost Pos) (goal : St) (current : Node St Ct Cost) :
    List Ct → AStar St Ct Cost Pos → AStar St Ct Cost Pos
  | [], s => s
  | c :: cs, s => stepLoop m goal current cs (processControl m goal current c s)

/-- Translation of `AStar::step`: report convergence for the popped node, or
expand it over the sampled controls. -/
def step (m : Model St Ct Cost Pos) (goal : St) (sampler : Model St Ct Cost Pos → St → List Ct)
    (current : Node St Ct Cost) (s : AStar St Ct Cost Pos) : Bool × AStar St Ct Cost Pos :=
  if m.converge current.state goal then (true, s)
  else (false, stepLoop m goal current (sampler m current.state) s)

/-- Loop body of `AStar::unwind_trajectory`, with the unbounded `loop` given a
fuel argument; each iteration looks up the parent, recomputes the edge cost as
`model.cost(&current.state, &p.state)` (note: from the child back to the
parent), and appends the parent's pair. -/
def unwindAux (pm : List (Id Cost × Node St Ct Cost)) (m : Model St Ct Cost Pos) :
    Nat → Node St Ct Cost → List (St × Ct) → Cost → List (St × Ct) × Cost
  | 0, _, acc, cost => (acc, cost)
  | fuel + 1, current, acc, cost =>
    match pmGet pm current.id with
    | some p => unwindAux pm m fuel p (acc ++ [(p.state, p.control)]) (cost + m.cost current.state p.state)
    | none => (acc, cost)

/-- Translation of `AStar::unwind_trajectory`.  The source's `loop` is run
with fuel `current.id.id`; since every recorded parent has a strictly smaller
integer id (proved below for reachable engine states), the walk always reaches
a node with no parent-link entry before the fuel runs out. -/
def unwind_trajectory (pm : List (Id Cost × Node St Ct Cost)) (m : Model St Ct Cost Pos)
    (current : Node St Ct Cost) : Trajectory St Ct Cost :=
  let r := unwindAux pm m current.id.id current [(current.state, current.control)] default
  ⟨r.2, r.1.reverse⟩

/-- Start node pushed by both planners: id `0`, default `g`, `f` equal to the
heuristic at the start, and the default placeholder control. -/
def seedNode (m : Model St Ct Cost Pos) (start goal : St) : Node St Ct Cost :=
  ⟨⟨0, m.heuristic start goal, default⟩, start, default⟩

/-- Push of the start node onto the open set (lines 250-256 and 287-292). -/
def pushSeed (m : Model St Ct Cost Pos) (start goal : St) (s : AStar St Ct Cost Pos) :
    AStar St Ct Cost Pos :=
  { s with queue := seedNode m start goal :: s.queue }

/-- Translation of `AStar::new`. -/
def new : AStar St Ct Cost Pos := ⟨[], [], [], 0⟩

/-- Translation of `AStar::clear`: the three collections are cleared, the id
counter is kept. -/
def clear (s : AStar St Ct Cost Pos) : AStar St Ct Cost Pos :=
  ⟨[], [], [], s.id_counter⟩

/-- Engine state reached after both planners' seeding on a fresh engine. -/
def seedState (m : Model St Ct Cost Pos) (start goal : St) : AStar St Ct Cost Pos :=
  ⟨[seedNode m start goal], [], [], 0⟩

/-- Conditional seeding of `next_trajectory` (line 249): push the start node
only when both the parent-link table and the open set are empty. -/
def seedIfEmpty (m : Model St Ct Cost Pos) (start goal : St) (s : AStar St Ct Cost Pos) :
    AStar St Ct Cost Pos :=
  if s.parent_map.isEmpty && s.queue.isEmpty then pushSeed m start goal s else s

/-- Translation of `AStar::next_trajectory`: conditional seeding, then one
pop-and-step, returning the reconstruction to the popped node (tagged final
exactly when it converged) or the unreachable error on an empty open set. -/
def next_trajectory (m : Model St Ct Cost Pos) (start goal : St)
    (sampler : Model St Ct Cost Pos → St → List Ct) (s : AStar St Ct Cost Pos) :
    PathResult St Ct Cost × AStar St Ct Cost Pos :=
  let s0 := seedIfEmpty m start goal s
  match popMin s0.queue with
  | some (current, rest) =>
    let p := step m goal sampler current { s0 with queue := rest }
    (if p.1 then PathResult.final (unwind_trajectory p.2.parent_map m current)
     else PathResult.intermediate (unwind_trajectory p.2.parent_map m current), p.2)
  | none => (PathResult.err PathFindingErr.unreachable, s0)

/-- Translation of the `while let Some(current) = self.queue.pop()` loop of
`AStar::optimize`, with the unbounded loop given a fuel argument (`none` means
the fuel ran out with the loop still running). -/
def optimizeLoop (m : Model St Ct Cost Pos) (goal : St)
    (sampler : Model St Ct Cost Pos → St → List Ct) :
    Nat → AStar St Ct Cost Pos → Option (PathResult St Ct Cost)
  | 0, _ => none
  | fuel + 1, s =>
    match popMin s.queue with
    | none => some (PathResult.err PathFindingErr.unreachable)
    | some (current, rest) =>
      let p := step m goal sampler current { s with queue := rest }
      if p.1 then some (PathResult.final (unwind_trajectory p.2.parent_map m current))
      else optimizeLoop m goal sampler fuel p.2

/-- Translation of `AStar::optimize`: short-circuit when the start already
converges, otherwise seed unconditionally and run the pop loop. -/
def optimize (m : Model St Ct Cost Pos) (start goal : St)
    (sampler : Model St Ct Cost Pos → St → List Ct) (fuel : Nat) (s : AStar St Ct Cost Pos) :
    Option (PathResult St Ct Cost) :=
  if m.converge start goal then
    some (PathResult.final ⟨default, [(start, default)]⟩)
  else optimizeLoop m goal sampler fuel (pushSeed m start goal s)

/-- Driver that calls `next_trajectory` repeatedly, stopping at the first
result that is not `Intermediate` (`none` means the fuel ran out first). -/
def iterateNext (m : Model St Ct Cost Pos) (start goal : St)
    (sampler : Model St Ct Cost Pos → St → List Ct) :
    Nat → AStar St Ct Cost Pos → Option (PathResult St Ct Cost)
  | 0, _ => none
  | fuel + 1, s =>
    match next_trajectory m start goal sampler s with
    | (PathResult.intermediate _, s') => iterateNext m start goal sampler fuel s'
    | (r, _) => some r

/-- Sequence of nodes popped by the `optimize` loop (within the given fuel). -/
def optTrace (m : Model St Ct Cost Pos) (goal : St)
    (sampler : Model St Ct Cost Pos → St → List Ct) :
    Nat → AStar St Ct Cost Pos → List (Node St Ct Cost)
  | 0, _ => []
  | fuel + 1, s =>
    match popMin s.queue with
    | none => []
    | some (current, rest) =>
      let p := step m goal sampler current { s with queue := rest }
      if p.1 then [current] else current :: optTrace m goal sampler fuel p.2

/-- Sequence of nodes popped by `optimize` including its pop-free short
circuit when the start already converges. -/
def optimizePops (m : Model St Ct Cost Pos) (start goal : St)
    (sampler : Model St Ct Cost Pos → St → List Ct) (fuel : Nat) (s : AStar St Ct Cost Pos) :
    List (Node St Ct Cost) :=
  if m.converge start goal then [] else optTrace m goal sampler fuel (pushSeed m start goal s)

/-- Sequence of nodes popped by repeated `next_trajectory` calls, up to and
including the call that returns a non-`Intermediate` result. -/
def nextTrace (m : Model St Ct Cost Pos) (start goal : St)
    (sampler : Model St Ct Cost Pos → St → List Ct) :
    Nat → AStar St Ct Cost Pos → List (Node St Ct Cost)
  | 0, _ => []
  | fuel + 1, s =>
    let s0 := seedIfEmpty m start goal s
    match popMin s0.queue with
    | none => []
    | some (current, rest) =>
      let p := step m goal sampler current { s0 with queue := rest }
      if p.1 then [current] else current :: nextTrace m start goal sampler fuel p.2

/-- Trace predicate for the `optimize` loop: within the given fuel the pop
loop drains the open set and no popped node satisfies `converge`. -/
def drainsNoConverge (m : Model St Ct Cost Pos) (goal : St)
    (sampler : Model St Ct Cost Pos → St → List Ct) :
    Nat → AStar St Ct Cost Pos → Bool
  | 0, _ => false
  | fuel + 1, s =>
    match popMin s.queue with
    | none => true
    | some (current, rest) =>
      let p := step m goal sampler current { s with queue := rest }
      !p.1 && drainsNoConverge m goal sampler fuel p.2

/-- Parent chain of a node: the node followed by the chain of its recorded
parents, with fuel (adequate fuel is `n.id.id`, by the strict id decrease on
reachable states). -/
def chainList (pm : List (Id Cost × Node St Ct Cost)) :
    Nat → Node St Ct Cost → List (Node St Ct Cost)
  | 0, n => [n]
  | fuel + 1, n =>
    match pmGet pm n.id with
    | none => [n]
    | some p => n :: chainList pm fuel p

/-- Terminal node of the parent chain, with fuel. -/
def chainLast (pm : List (Id Cost × Node St Ct Cost)) :
    Nat → Node St Ct Cost → Node St Ct Cost
  | 0, n => n
  | fuel + 1, n =>
    match pmGet pm n.id with
    | none => n
    | some p => chainLast pm fuel p

/-- Cost accumulated along a parent chain exactly as `unwind_trajectory`
recomputes it: starting from `c`, each consecutive chain pair `(a, b)` (child
`a`, parent `b`) contributes `m.cost a.state b.state`. -/
def chainCostFrom (m : Model St Ct Cost Pos) : Cost → List (Node St Ct Cost) → Cost
  | c, [] => c
  | c, [_] => c
  | c, a :: b :: rest => chainCostFrom m (c + m.cost a.state b.state) (b :: rest)

/-- Cost of a chronological `(state, control)` sequence as the claim words it:
the sum of `Model.cost(from_state, to_state)` over each consecutive
`(parent, child)` pair, parent first. -/
def specForwardCost (m : Model St Ct Cost Pos) : List (St × Ct) → Cost
  | a :: b :: rest => m.cost a.1 b.1 + specForwardCost m (b :: rest)
  | _ => default

/-! Concrete instances (states, controls, costs and keys all `Nat`) used by
the witnesses and counterexamples below. -/

/-- Forward-line model: control `c > 0` moves `s` to `s + c`, unit edge cost,
remaining-distance heuristic, exact goal test, discretization key the state
itself. -/
def M1 : Model Nat Nat Nat Nat :=
  ⟨fun s c => if c = 0 then none else some (s + c), fun _ _ => 1,
   fun s g => g - s, fun s g => s == g, fun s => s⟩

/-- Variant of `M1` with an asymmetric edge cost: `1` going up, `5` going
down. -/
def M2 : Model Nat Nat Nat Nat :=
  { M1 with cost := fun a b => if a ≤ b then 1 else 5 }

/-- Variant of `M1` whose goal test always succeeds. -/
def Mc : Model Nat Nat Nat Nat :=
  { M1 with converge := fun _ _ => true }

/-- Variant of `M1` with no applicable control anywhere. -/
def Md : Model Nat Nat Nat Nat :=
  { M1 with integrate := fun _ _ => none }

/-- Sampler producing the single candidate control `1`. -/
def sp1 : Model Nat Nat Nat Nat → Nat → List Nat := fun _ _ => [1]

/-- Engine state after one expansion of the seeded start under `M1`. -/
def s1c : AStar Nat Nat Nat Nat :=
  (step M1 2 sp1 (seedNode M1 0 2) { seedState M1 0 2 with queue := [] }).2

/-- Engine state after two expansions under `M1`: the first child has been
popped off the open set but keeps its best-per-cell entry. -/
def s2c : AStar Nat Nat Nat Nat :=
  (step M1 2 sp1 ⟨⟨1, 2, 1⟩, 1, 1⟩ { s1c with queue := [] }).2

/-- Engine state after one expansion of the seeded start under `M2`. -/
def s1cM2 : AStar Nat Nat Nat Nat :=
  (step M2 2 sp1 (seedNode M2 0 2) { seedState M2 0 2 with queue := [] }).2

/-- Engine state after two expansions under `M2`. -/
def s2cM2 : AStar Nat Nat Nat Nat :=
  (step M2 2 sp1 ⟨⟨1, 2, 1⟩, 1, 1⟩ { s1cM2 with queue := [] }).2

/-- Dead engine state: empty open set but a non-empty parent-link table. -/
def sDead : AStar Nat Nat Nat Nat :=
  ⟨[], [(⟨1, 2, 1⟩, seedNode M1 0 2)], [(1, ⟨1, 2, 1⟩)], 1⟩

/-! Helper lemmas about the container models. -/

theorem popMin_none_iff {q : List (Node St Ct Cost)} : popMin q = none ↔ q = [] := by
  cases q with
  | nil => simp [popMin]
  | cons a t =>
    simp only [popMin]
    cases popMin t with
    | none => simp
    | some p => cases p with | mk m r => by_cases h : a.id.f ≤ m.id.f <;> simp [h]

theorem popMin_spec {q : List (Node St Ct Cost)} {n : Node St Ct Cost}
    {rest : List (Node St Ct Cost)} (h : popMin q = some (n, rest)) :
    n ∈ q ∧ (∀ x ∈ rest, x ∈ q) ∧ (∀ x ∈ q, x = n ∨ x ∈ rest) ∧ (∀ x ∈ q, n.id.f ≤ x.id.f) := by
  induction q generalizing n rest with
  | nil => simp [popMin] at h
  | cons a t ih =>
    simp only [popMin] at h
    cases ht : popMin t with
    | none =>
      rw [ht] at h
      have : t = [] := popMin_none_iff.mp ht
      subst this
      cases h
      refine ⟨List.mem_cons_self a [], by simp, ?_, ?_⟩
      · intro x hx; left; simpa using hx
      · intro x hx; simp at hx; subst hx; exact le_refl _
    | some p =>
      rw [ht] at h
      cases p with
      | mk m r =>
        obtain ⟨hm, hsub, hcov, hmin⟩ := ih ht
        have h' : (if a.id.f ≤ m.id.f then some (a, t) else some (m, a :: r))
            = some (n, rest) := h
        clear h
        by_cases hle : a.id.f ≤ m.id.f
        · rw [if_pos hle] at h'
          cases h'
          refine ⟨List.mem_cons_self _ _, fun x hx => List.mem_cons_of_mem _ hx, ?_, ?_⟩
          · intro x hx
            rcases List.mem_cons.mp hx with h1 | h1
            · left; exact h1
            · right; exact h1
          · intro x hx
            rcases List.mem_cons.mp hx with h1 | h1
            · subst h1; exact le_refl _
            · exact le_trans hle (hmin x h1)
        · rw [if_neg hle] at h'
          cases h'
          have hma : n.id.f ≤ a.id.f := le_of_lt (lt_of_not_le hle)
          refine ⟨List.mem_cons_of_mem _ hm, ?_, ?_, ?_⟩
          · intro x hx
            rcases List.mem_cons.mp hx with h1 | h1
            · subst h1; exact List.mem_cons_self _ _
            · exact List.mem_cons_of_mem _ (hsub x h1)
          · intro x hx
            rcases List.mem_cons.mp hx with h1 | h1
            · subst h1; right; exact List.mem_cons_self _ _
            · rcases hcov x h1 with h2 | h2
              · left; exact h2
              · right; exact List.mem_cons_of_mem _ h2
          · intro x hx
            rcases List.mem_cons.mp hx with h1 | h1
            · subst h1; exact hma
            · exact hmin x h1

theorem idKeyMatches_self (k : Id Cost) : idKeyMatches k k = true := by
  simp [idKeyMatches, idEq]

theorem pmGet_pmInsert_self (pm : List (Id Cost × Node St Ct Cost))
    (k : Id Cost) (v : Node St Ct Cost) : pmGet (pmInsert pm k v) k = some v := by
  induction pm with
  | nil => simp [pmInsert, pmGet, idKeyMatches_self]
  | cons e rest ih =>
    simp only [pmInsert]
    by_cases h : idKeyMatches e.1 k = true
    · simp [h, pmGet, idKeyMatches_self]
    · simp only [h]
      simp [pmGet, h, ih]

theorem gridGet_gridInsert_self (g : List (Pos × Id Cost)) (p : Pos) (v : Id Cost) :
    gridGet (gridInsert g p v) p = some v := by
  induction g with
  | nil => simp [gridInsert, gridGet]
  | cons e rest ih =>
    simp only [gridInsert]
    by_cases h : e.1 = p
    · simp [h, gridGet]
    · simp [gridGet, h, ih]

/-! Claim theorems, first batch. -/

/-- C9: the `Id` equality and hash contracts are inconsistent: equality
compares only `f` while hashing uses only the integer id, so there are values
with distinct ids and equal `f` that are equal yet hash apart, and values with
one id and different `f` that hash together yet are unequal; the
equal-implies-equal-hash law fails. -/
theorem c9_id_eq_hash_inconsistent :
    (∃ a b : Id Nat, a.id ≠ b.id ∧ idEq a b = true ∧ idHash a ≠ idHash b)
    ∧ (∃ c d : Id Nat, idHash c = idHash d ∧ idEq c d = false)
    ∧ ¬ (∀ a b : Id Nat, idEq a b = true → idHash a = idHash b) := by
  refine ⟨⟨⟨1, 5, 5⟩, ⟨2, 5, 7⟩, by decide, by decide, by decide⟩,
          ⟨⟨3, 5, 0⟩, ⟨3, 6, 0⟩, by decide, by decide⟩, ?_⟩
  intro h
  have := h ⟨1, 5, 5⟩ ⟨2, 5, 7⟩ (by decide)
  simp [idHash] at this

/-- C5: popping the open set (both execution modes pop through `popMin`)
returns a member of the open set whose estimated total cost `f` is less than
or equal to the `f` of every node remaining in it. -/
theorem c5_pop_min_f {q : List (Node St Ct Cost)} {n : Node St Ct Cost}
    {rest : List (Node St Ct Cost)} (h : popMin q = some (n, rest)) :
    n ∈ q ∧ ∀ x ∈ rest, n.id.f ≤ x.id.f := by
  obtain ⟨hm, hsub, _, hmin⟩ := popMin_spec h
  exact ⟨hm, fun x hx => hmin x (hsub x hx)⟩

/-- Concrete open-set nodes for the C5 witness. -/
def wNode1 : Node Nat Nat Nat := ⟨⟨1, 7, 7⟩, 1, 1⟩

/-- Concrete open-set node of least `f` for the C5 witness. -/
def wNode2 : Node Nat Nat Nat := ⟨⟨2, 3, 3⟩, 2, 1⟩

/-- Witness for C5 at a concrete two-element open set. -/
theorem c5_pop_min_f_witness :
    popMin [wNode1, wNode2] = some (wNode2, [wNode1])
    ∧ wNode2 ∈ [wNode1, wNode2] ∧ wNode2.id.f ≤ wNode1.id.f := by
  have h : popMin [wNode1, wNode2] = some (wNode2, [wNode1]) := by decide
  have h2 := c5_pop_min_f h
  exact ⟨h, h2.1, h2.2 wNode1 (by decide)⟩

/-- C1: the dominance check for one applicable sampled control.  With no
best-per-cell entry for the child's key, the child's identity is inserted as
the new best, a parent link child to current is recorded, and the child is
pushed onto the open set; with an entry whose `g` is at most the child's `g`,
the engine state is unchanged apart from the burnt identity (no enqueue, no
parent-link write, no best-per-cell update); with an entry whose `g` exceeds
the child's `g`, the entry is overwritten with the child's identity, a parent
link is recorded and the child is pushed, the superseded node staying in the
open set. -/
theorem c1_dominance_check (m : Model St Ct Cost Pos) (goal : St) (current : Node St Ct Cost)
    (c : Ct) (s : AStar St Ct Cost Pos) (cs0 : St)
    (hint : m.integrate current.state c = some cs0) :
    (gridGet s.grid (m.grid_position cs0) = none →
       (processControl m goal current c s).queue
           = childNode m goal current c cs0 s.id_counter :: s.queue
       ∧ pmGet (processControl m goal current c s).parent_map
           (childNode m goal current c cs0 s.id_counter).id = some current
       ∧ gridGet (processControl m goal current c s).grid (m.grid_position cs0)
           = some (childNode m goal current c cs0 s.id_counter).id
       ∧ (processControl m goal current c s).id_counter = s.id_counter + 1)
    ∧ (∀ b, gridGet s.grid (m.grid_position cs0) = some b →
         b.g ≤ (childNode m goal current c cs0 s.id_counter).id.g →
         processControl m goal current c s = { s with id_counter := s.id_counter + 1 })
    ∧ (∀ b, gridGet s.grid (m.grid_position cs0) = some b →
         (childNode m goal current c cs0 s.id_counter).id.g < b.g →
         (processControl m goal current c s).queue
             = childNode m goal current c cs0 s.id_counter :: s.queue
         ∧ pmGet (processControl m goal current c s).parent_map
             (childNode m goal current c cs0 s.id_counter).id = some current
         ∧ gridGet (processControl m goal current c s).grid (m.grid_position cs0)
             = some (childNode m goal current c cs0 s.id_counter).id
         ∧ (processControl m goal current c s).id_counter = s.id_counter + 1) := by
  have hcs : ∀ k, (childNode m goal current c cs0 k).state = cs0 := fun _ => rfl
  refine ⟨?_, ?_, ?_⟩
  · intro h0
    have hres : processControl m goal current c s
        = { s with id_counter := s.id_counter + 1,
                   grid := gridInsert s.grid (m.grid_position cs0)
                     (childNode m goal current c cs0 s.id_counter).id,
                   parent_map := pmInsert s.parent_map
                     (childNode m goal current c cs0 s.id_counter).id current,
                   queue := childNode m goal current c cs0 s.id_counter :: s.queue } := by
      simp only [processControl, hint, hcs, h0]
    rw [hres]
    exact ⟨rfl, pmGet_pmInsert_self _ _ _, gridGet_gridInsert_self _ _ _, rfl⟩
  · intro b hb hle
    simp only [processControl, hint, hcs, hb, if_pos hle]
  · intro b hb hlt
    have hres : processControl m goal current c s
        = { s with id_counter := s.id_counter + 1,
                   grid := gridInsert s.grid (m.grid_position cs0)
                     (childNode m goal current c cs0 s.id_counter).id,
                   parent_map := pmInsert s.parent_map
                     (childNode m goal current c cs0 s.id_counter).id current,
                   queue := childNode m goal current c cs0 s.id_counter :: s.queue } := by
      simp only [processControl, hint, hcs, hb, if_neg (not_le.mpr hlt)]
    rw [hres]
    exact ⟨rfl, pmGet_pmInsert_self _ _ _, gridGet_gridInsert_self _ _ _, rfl⟩

/-- Empty engine with an untouched best-per-cell map, C1 witness case one. -/
def sA : AStar Nat Nat Nat Nat := ⟨[], [], [], 0⟩

/-- Engine whose best-per-cell entry for key `1` dominates the new child
(`g = 0`), C1 witness case two. -/
def sB : AStar Nat Nat Nat Nat := ⟨[], [], [(1, ⟨9, 2, 0⟩)], 3⟩

/-- Engine whose best-per-cell entry for key `1` is beaten by the new child
(`g = 9`), C1 witness case three. -/
def sC : AStar Nat Nat Nat Nat := ⟨[], [], [(1, ⟨9, 9, 9⟩)], 3⟩

/-- Witness for C1: the three dominance-check outcomes at concrete inputs. -/
theorem c1_dominance_check_witness :
    ((processControl M1 2 (seedNode M1 0 2) 1 sA).queue
        = childNode M1 2 (seedNode M1 0 2) 1 1 sA.id_counter :: sA.queue
      ∧ gridGet (processControl M1 2 (seedNode M1 0 2) 1 sA).grid (M1.grid_position 1)
        = some (childNode M1 2 (seedNode M1 0 2) 1 1 sA.id_counter).id)
    ∧ processControl M1 2 (seedNode M1 0 2) 1 sB = { sB with id_counter := sB.id_counter + 1 }
    ∧ (processControl M1 2 (seedNode M1 0 2) 1 sC).queue
        = childNode M1 2 (seedNode M1 0 2) 1 1 sC.id_counter :: sC.queue := by
  have hA := (c1_dominance_check M1 2 (seedNode M1 0 2) 1 sA 1 (by decide)).1 (by decide)
  have hB := (c1_dominance_check M1 2 (seedNode M1 0 2) 1 sB 1 (by decide)).2.1
    ⟨9, 2, 0⟩ (by decide) (by decide)
  have hC := (c1_dominance_check M1 2 (seedNode M1 0 2) 1 sC 1 (by decide)).2.2
    ⟨9, 9, 9⟩ (by decide) (by decide)
  exact ⟨⟨hA.1, hA.2.2.1⟩, hB, hC.1⟩

/-- C10: with an exhausted open set but a non-empty parent-link table,
`next_trajectory` does not reseed: it returns Unreachable and leaves the
engine state unchanged, for any model, start, goal and sampler; after `clear`
the call seeds again and does not report Unreachable. -/
theorem c10_dead_engine (m : Model St Ct Cost Pos) (start goal : St)
    (sampler : Model St Ct Cost Pos → St → List Ct) (s : AStar St Ct Cost Pos)
    (h1 : s.queue = []) (h2 : s.parent_map ≠ []) :
    next_trajectory m start goal sampler s = (PathResult.err PathFindingErr.unreachable, s)
    ∧ (next_trajectory m start goal sampler (clear s)).1
        ≠ PathResult.err PathFindingErr.unreachable := by
  constructor
  · have hpm : s.parent_map.isEmpty = false := by
      cases hp : s.parent_map with
      | nil => exact absurd hp h2
      | cons a t => rfl
    simp only [next_trajectory, seedIfEmpty, hpm, Bool.false_and, if_neg Bool.false_ne_true]
    rw [h1]
    simp [popMin]
  · simp only [next_trajectory, seedIfEmpty, clear, pushSeed]
    simp only [List.isEmpty_nil, Bool.and_self, if_pos rfl]
    simp only [popMin]
    cases hb : (step m goal sampler (seedNode m start goal)
        { queue := ([] : List (Node St Ct Cost)), parent_map := [], grid := [],
          id_counter := s.id_counter }).1 <;> simp [hb]

/-- Witness for C10 at the concrete dead engine `sDead`. -/
theorem c10_dead_engine_witness :
    next_trajectory M1 0 2 sp1 sDead = (PathResult.err PathFindingErr.unreachable, sDead)
    ∧ (next_trajectory M1 0 2 sp1 (clear sDead)).1
        ≠ PathResult.err PathFindingErr.unreachable :=
  c10_dead_engine M1 0 2 sp1 sDead rfl (by decide)

/-- Helper for C8: the `optimize` pop loop reports Unreachable exactly when,
within the given fuel, it drains the open set with no popped node satisfying
`converge`. -/
theorem optimizeLoop_err_iff (m : Model St Ct Cost Pos) (goal : St)
    (sampler : Model St Ct Cost Pos → St → List Ct) (fuel : Nat) (s : AStar St Ct Cost Pos) :
    optimizeLoop m goal sampler fuel s = some (PathResult.err PathFindingErr.unreachable)
      ↔ drainsNoConverge m goal sampler fuel s = true := by
  induction fuel generalizing s with
  | zero => simp [optimizeLoop, drainsNoConverge]
  | succ fuel ih =>
    simp only [optimizeLoop, drainsNoConverge]
    cases hp : popMin s.queue with
    | none => simp
    | some p =>
      rcases p with ⟨c, rest⟩
      simp only
      by_cases hb : (step m goal sampler c { s with queue := rest }).1 = true
      · simp [hb]
      · simp only [Bool.not_eq_true] at hb
        simp [hb, ih]

/-- C8: the only reported error is Unreachable; `next_trajectory` reports it
exactly when the (conditionally seeded) open set is empty at the pop attempt,
and `optimize` reports it exactly when the start does not already converge and
the pop loop drains the open set with no popped node converging. -/
theorem c8_unreachable_iff (m : Model St Ct Cost Pos) (start goal : St)
    (sampler : Model St Ct Cost Pos → St → List Ct) (s : AStar St Ct Cost Pos) :
    (∀ e, (next_trajectory m start goal sampler s).1 = PathResult.err e
        → e = PathFindingErr.unreachable)
    ∧ ((next_trajectory m start goal sampler s).1 = PathResult.err PathFindingErr.unreachable
        ↔ (seedIfEmpty m start goal s).queue = [])
    ∧ (∀ fuel (s' : AStar St Ct Cost Pos) e,
         optimize m start goal sampler fuel s' = some (PathResult.err e)
           → e = PathFindingErr.unreachable)
    ∧ (∀ fuel (s' : AStar St Ct Cost Pos),
         optimize m start goal sampler fuel s' = some (PathResult.err PathFindingErr.unreachable)
           ↔ (m.converge start goal = false
              ∧ drainsNoConverge m goal sampler fuel (pushSeed m start goal s') = true)) := by
  refine ⟨fun e _ => by cases e; rfl, ?_, fun fuel s' e _ => by cases e; rfl, ?_⟩
  · constructor
    · intro h
      cases hp : popMin (seedIfEmpty m start goal s).queue with
      | none => exact popMin_none_iff.mp hp
      | some p =>
        exfalso
        rcases p with ⟨c, rest⟩
        simp only [next_trajectory, hp] at h
        by_cases hb : (step m goal sampler c { seedIfEmpty m start goal s with queue := rest }).1
            = true <;> simp [hb] at h
    · intro h
      simp only [next_trajectory, popMin_none_iff.mpr h]
  · intro fuel s'
    simp only [optimize]
    cases hc : m.converge start goal with
    | true => simp
    | false => simp [optimizeLoop_err_iff]

/-- Witness for C8: a dead engine where `next_trajectory` reports Unreachable,
and a model with no applicable controls where `optimize` reports
Unreachable. -/
theorem c8_unreachable_iff_witness :
    (next_trajectory M1 0 2 sp1 sDead).1 = PathResult.err PathFindingErr.unreachable
    ∧ optimize Md 0 2 sp1 2 (new : AStar Nat Nat Nat Nat)
        = some (PathResult.err PathFindingErr.unreachable) := by
  refine ⟨(c8_unreachable_iff M1 0 2 sp1 sDead).2.1.mpr (by decide), ?_⟩
  exact ((c8_unreachable_iff Md 0 2 sp1 sDead).2.2.2 2 new).mpr (by decide)

/-! Parent-chain lemmas and the closed form of `unwind_trajectory`. -/

theorem idKeyMatches_iff {a b : Id Cost} :
    idKeyMatches a b = true ↔ a.id = b.id ∧ a.f = b.f := by
  simp [idKeyMatches, idEq]

theorem chainList_cons (pm : List (Id Cost × Node St Ct Cost)) (fuel : Nat)
    (n : Node St Ct Cost) :
    chainList pm fuel n = n :: (chainList pm fuel n).tail := by
  cases fuel with
  | zero => rfl
  | succ fuel => cases h : pmGet pm n.id <;> simp [chainList, h]

theorem unwindAux_eq (pm : List (Id Cost × Node St Ct Cost)) (m : Model St Ct Cost Pos)
    (fuel : Nat) :
    ∀ (n : Node St Ct Cost) (acc : List (St × Ct)) (c : Cost),
      unwindAux pm m fuel n acc c
        = (acc ++ ((chainList pm fuel n).map fun nd => (nd.state, nd.control)).tail,
           chainCostFrom m c (chainList pm fuel n)) := by
  induction fuel with
  | zero => intro n acc c; simp [unwindAux, chainList, chainCostFrom]
  | succ fuel ih =>
    intro n acc c
    cases h : pmGet pm n.id with
    | none => simp [unwindAux, chainList, h, chainCostFrom]
    | some p =>
      obtain ⟨t, ht⟩ : ∃ t, chainList pm fuel p = p :: t :=
        ⟨(chainList pm fuel p).tail, chainList_cons pm fuel p⟩
      simp only [unwindAux, chainList, h, ih]
      rw [ht]
      simp [chainCostFrom, List.append_assoc]

theorem unwind_trajectory_eq (pm : List (Id Cost × Node St Ct Cost)) (m : Model St Ct Cost Pos)
    (n : Node St Ct Cost) :
    unwind_trajectory pm m n
      = ⟨chainCostFrom m default (chainList pm n.id.id n),
         ((chainList pm n.id.id n).map fun nd => (nd.state, nd.control)).reverse⟩ := by
  obtain ⟨t, ht⟩ : ∃ t, chainList pm n.id.id n = n :: t :=
    ⟨(chainList pm n.id.id n).tail, chainList_cons pm n.id.id n⟩
  simp only [unwind_trajectory, unwindAux_eq, ht]
  simp

theorem chainList_getLast (pm : List (Id Cost × Node St Ct Cost)) (fuel : Nat)
    (n : Node St Ct Cost) :
    (chainList pm fuel n).getLast? = some (chainLast pm fuel n) := by
  induction fuel generalizing n with
  | zero => rfl
  | succ fuel ih =>
    cases h : pmGet pm n.id with
    | none => simp [chainList, chainLast, h]
    | some p =>
      obtain ⟨t, ht⟩ : ∃ t, chainList pm fuel p = p :: t :=
        ⟨(chainList pm fuel p).tail, chainList_cons pm fuel p⟩
      simp only [chainList, chainLast, h]
      rw [← ih p]
      rw [ht]
      simp [List.getLast?_cons_cons]

/-- Strict decrease of parent-link entries: every recorded parent has a
strictly smaller integer identity than its child key. -/
def PmDecreasing (pm : List (Id Cost × Node St Ct Cost)) : Prop :=
  ∀ e ∈ pm, e.2.id.id < e.1.id

/-- Bound on parent-link entries: every key and value identity is at most
`N`. -/
def PmBound (pm : List (Id Cost × Node St Ct Cost)) (N : Nat) : Prop :=
  ∀ e ∈ pm, e.1.id ≤ N ∧ e.2.id.id ≤ N

theorem pmGet_mem {pm : List (Id Cost × Node St Ct Cost)}
    {k : Id Cost} {v : Node St Ct Cost} (h : pmGet pm k = some v) :
    ∃ e ∈ pm, e.2 = v ∧ e.1.id = k.id := by
  induction pm with
  | nil => simp [pmGet] at h
  | cons e rest ih =>
    by_cases hm : idKeyMatches e.1 k = true
    · simp only [pmGet, if_pos hm] at h
      cases h
      exact ⟨e, List.mem_cons_self _ _, rfl, (idKeyMatches_iff.mp hm).1⟩
    · simp only [pmGet, if_neg hm] at h
      obtain ⟨e', he', hv, hid⟩ := ih h
      exact ⟨e', List.mem_cons_of_mem _ he', hv, hid⟩

theorem pmGet_lt {pm : List (Id Cost × Node St Ct Cost)}
    (hdec : PmDecreasing pm) {k : Id Cost} {v : Node St Ct Cost}
    (h : pmGet pm k = some v) : v.id.id < k.id := by
  obtain ⟨e, he, hv, hid⟩ := pmGet_mem h
  have := hdec e he
  rw [hv, hid] at this
  exact this

theorem pmGet_zero {pm : List (Id Cost × Node St Ct Cost)}
    (hdec : PmDecreasing pm) {k : Id Cost} (hk : k.id = 0) : pmGet pm k = none := by
  cases h : pmGet pm k with
  | none => rfl
  | some v =>
    have := pmGet_lt hdec h
    rw [hk] at this
    exact absurd this (Nat.not_lt_zero _)

theorem chainLast_fuel (pm : List (Id Cost × Node St Ct Cost)) (hdec : PmDecreasing pm) :
    ∀ (fuel fuel' : Nat) (n : Node St Ct Cost), n.id.id ≤ fuel → n.id.id ≤ fuel' →
      chainLast pm fuel n = chainLast pm fuel' n := by
  intro fuel
  induction fuel with
  | zero =>
    intro fuel' n hn _
    have hz : n.id.id = 0 := Nat.le_zero.mp hn
    have h0 : pmGet pm n.id = none := pmGet_zero hdec hz
    cases fuel' with
    | zero => rfl
    | succ fuel' => simp [chainLast, h0]
  | succ fuel ih =>
    intro fuel' n hn hn'
    cases hg : pmGet pm n.id with
    | none =>
      cases fuel' with
      | zero => simp [chainLast, hg]
      | succ fuel' => simp [chainLast, hg]
    | some p =>
      have hp : p.id.id < n.id.id := pmGet_lt hdec hg
      have hp1 : p.id.id ≤ fuel := Nat.lt_succ_iff.mp (lt_of_lt_of_le hp hn)
      cases fuel' with
      | zero => exact absurd (lt_of_lt_of_le hp hn') (Nat.not_lt_zero _)
      | succ fuel' =>
        have hp2 : p.id.id ≤ fuel' := Nat.lt_succ_iff.mp (lt_of_lt_of_le hp hn')
        simp only [chainLast, hg]
        exact ih fuel' p hp1 hp2

theorem chainLast_no_parent (pm : List (Id Cost × Node St Ct Cost)) (hdec : PmDecreasing pm) :
    ∀ (fuel : Nat) (n : Node St Ct Cost), n.id.id ≤ fuel →
      pmGet pm (chainLast pm fuel n).id = none := by
  intro fuel
  induction fuel with
  | zero =>
    intro n hn
    exact pmGet_zero hdec (Nat.le_zero.mp hn)
  | succ fuel ih =>
    intro n hn
    cases hg : pmGet pm n.id with
    | none => simp [chainLast, hg]
    | some p =>
      have hp : p.id.id ≤ fuel := Nat.lt_succ_iff.mp (lt_of_lt_of_le (pmGet_lt hdec hg) hn)
      simp only [chainLast, hg]
      exact ih p hp

/-! Stability of lookups under fresh insertions, and uniqueness of grid
keys. -/

theorem pmInsert_append {pm : List (Id Cost × Node St Ct Cost)}
    {k : Id Cost} (v : Node St Ct Cost) (h : ∀ e ∈ pm, e.1.id ≠ k.id) :
    pmInsert pm k v = pm ++ [(k, v)] := by
  induction pm with
  | nil => rfl
  | cons e rest ih =>
    have hne : idKeyMatches e.1 k = false := by
      cases hm : idKeyMatches e.1 k with
      | false => rfl
      | true => exact absurd (idKeyMatches_iff.mp hm).1 (h e (List.mem_cons_self _ _))
    simp only [pmInsert, hne, Bool.false_eq_true, if_false, List.cons_append]
    rw [ih fun e he => h e (List.mem_cons_of_mem _ he)]

theorem pmGet_append_ne {pm : List (Id Cost × Node St Ct Cost)}
    {k k' : Id Cost} (v : Node St Ct Cost) (h : k'.id ≠ k.id) :
    pmGet (pm ++ [(k, v)]) k' = pmGet pm k' := by
  induction pm with
  | nil =>
    have : idKeyMatches k k' = false := by
      cases hm : idKeyMatches k k' with
      | false => rfl
      | true => exact absurd (idKeyMatches_iff.mp hm).1 (fun he => h he.symm)
    simp [pmGet, this]
  | cons e rest ih =>
    by_cases hm : idKeyMatches e.1 k' = true
    · simp [pmGet, hm]
    · simp only [List.cons_append, pmGet, hm, Bool.false_eq_true, if_false]
      simpa using ih

theorem pmGet_append_fresh {pm : List (Id Cost × Node St Ct Cost)}
    {k : Id Cost} (v : Node St Ct Cost) (h : ∀ e ∈ pm, e.1.id ≠ k.id) :
    pmGet (pm ++ [(k, v)]) k = some v := by
  induction pm with
  | nil => simp [pmGet, idKeyMatches_self]
  | cons e rest ih =>
    have hne : idKeyMatches e.1 k = false := by
      cases hm : idKeyMatches e.1 k with
      | false => rfl
      | true => exact absurd (idKeyMatches_iff.mp hm).1 (h e (List.mem_cons_self _ _))
    simp only [List.cons_append, pmGet, hne, Bool.false_eq_true, if_false]
    exact ih fun e he => h e (List.mem_cons_of_mem _ he)

theorem chainLast_stable {pm pm' : List (Id Cost × Node St Ct Cost)}
    {N : Nat} (hb : PmBound pm N) (hst : ∀ k : Id Cost, k.id ≤ N → pmGet pm' k = pmGet pm k) :
    ∀ (fuel : Nat) (n : Node St Ct Cost), n.id.id ≤ N →
      chainLast pm' fuel n = chainLast pm fuel n := by
  intro fuel
  induction fuel with
  | zero => intro n _; rfl
  | succ fuel ih =>
    intro n hn
    have hlook : pmGet pm' n.id = pmGet pm n.id := hst n.id hn
    cases hg : pmGet pm n.id with
    | none =>
      simp only [chainLast]
      rw [hlook, hg]
    | some p =>
      have hpN : p.id.id ≤ N := by
        obtain ⟨e, he, hv, _⟩ := pmGet_mem hg
        have := (hb e he).2
        rwa [hv] at this
      simp only [chainLast]
      rw [hlook, hg]
      exact ih p hpN

theorem gridGet_gridInsert_ne {g : List (Pos × Id Cost)} {p q : Pos} (v : Id Cost)
    (h : q ≠ p) : gridGet (gridInsert g p v) q = gridGet g q := by
  have hne : p ≠ q := Ne.symm h
  induction g with
  | nil => simp [gridInsert, gridGet, hne]
  | cons e rest ih =>
    by_cases he : e.1 = p
    · subst he
      simp [gridInsert, gridGet, hne]
    · simp only [gridInsert, if_neg he]
      by_cases hq : e.1 = q
      · simp [gridGet, hq]
      · simp [gridGet, hq, ih]

theorem gridInsert_mem {g : List (Pos × Id Cost)} {p : Pos} {v : Id Cost}
    {x : Pos × Id Cost} (h : x ∈ gridInsert g p v) : x = (p, v) ∨ x ∈ g := by
  induction g with
  | nil => simp [gridInsert] at h; left; exact h
  | cons e rest ih =>
    by_cases he : e.1 = p
    · simp only [gridInsert, if_pos he] at h
      rcases List.mem_cons.mp h with h1 | h1
      · left; exact h1
      · right; exact List.mem_cons_of_mem _ h1
    · simp only [gridInsert, if_neg he] at h
      rcases List.mem_cons.mp h with h1 | h1
      · right; subst h1; exact List.mem_cons_self _ _
      · rcases ih h1 with h2 | h2
        · left; exact h2
        · right; exact List.mem_cons_of_mem _ h2

theorem gridInsert_uniq {g : List (Pos × Id Cost)} {p : Pos} {v : Id Cost}
    (h : g.Pairwise (fun a b => a.1 ≠ b.1)) :
    (gridInsert g p v).Pairwise (fun a b => a.1 ≠ b.1) := by
  induction g with
  | nil => simp [gridInsert]
  | cons e rest ih =>
    obtain ⟨hhead, htail⟩ := List.pairwise_cons.mp h
    by_cases he : e.1 = p
    · simp only [gridInsert, if_pos he]
      refine List.pairwise_cons.mpr ⟨?_, htail⟩
      intro b hb
      have := hhead b hb
      rw [he] at this
      exact this
    · simp only [gridInsert, if_neg he]
      refine List.pairwise_cons.mpr ⟨?_, ih htail⟩
      intro b hb
      rcases gridInsert_mem hb with h1 | h1
      · rw [h1]; exact he
      · exact hhead b h1

/-! Reachable engine states and the search invariant. -/

/-- Engine states reachable within one planning run on a fresh (or cleared)
engine: the seeded state, closed under one pop-and-step.  Both
`next_trajectory` (when it does not reseed) and every iteration of the
`optimize` loop move along this relation. -/
inductive Reach (m : Model St Ct Cost Pos) (goal : St)
    (sampler : Model St Ct Cost Pos → St → List Ct) (start : St) :
    AStar St Ct Cost Pos → Prop where
  | init : Reach m goal sampler start (seedState m start goal)
  | expand {s : AStar St Ct Cost Pos} {c : Node St Ct Cost} {rest : List (Node St Ct Cost)} :
      Reach m goal sampler start s → popMin s.queue = some (c, rest) →
      Reach m goal sampler start (step m goal sampler c { s with queue := rest }).2

/-- Search invariant maintained at every reachable engine state. -/
structure Inv (m : Model St Ct Cost Pos) (start goal : St) (s : AStar St Ct Cost Pos) :
    Prop where
  qBound : ∀ n ∈ s.queue, n.id.id ≤ s.id_counter
  pmBound : PmBound s.parent_map s.id_counter
  pmDec : PmDecreasing s.parent_map
  gridUniq : s.grid.Pairwise (fun a b => a.1 ≠ b.1)
  gridDom : ∀ n ∈ s.queue, n.id.id ≠ 0 →
    ∃ b, gridGet s.grid (m.grid_position n.state) = some b ∧ b.g ≤ n.id.g
  qLinked : ∀ n ∈ s.queue, chainLast s.parent_map n.id.id n = seedNode m start goal
  pmLinked : ∀ e ∈ s.parent_map, chainLast s.parent_map e.2.id.id e.2 = seedNode m start goal

theorem insertChild_inv (m : Model St Ct Cost Pos) (start goal : St)
    (current ch : Node St Ct Cost) (pos : Pos) (s : AStar St Ct Cost Pos)
    (hInv : Inv m start goal s)
    (hcur : current.id.id ≤ s.id_counter)
    (hlink : chainLast s.parent_map current.id.id current = seedNode m start goal)
    (hchid : ch.id.id = s.id_counter + 1)
    (hchpos : m.grid_position ch.state = pos)
    (hdom : ∀ n ∈ s.queue, n.id.id ≠ 0 → m.grid_position n.state = pos → ch.id.g ≤ n.id.g) :
    Inv m start goal
      { s with id_counter := s.id_counter + 1,
               grid := gridInsert s.grid pos ch.id,
               parent_map := pmInsert s.parent_map ch.id current,
               queue := ch :: s.queue }
    ∧ (∀ k : Id Cost, k.id ≤ s.id_counter →
        pmGet (pmInsert s.parent_map ch.id current) k = pmGet s.parent_map k) := by
  have hfresh : ∀ e ∈ s.parent_map, e.1.id ≠ ch.id.id := by
    intro e he
    have := (hInv.pmBound e he).1
    omega
  have hpmEq : pmInsert s.parent_map ch.id current = s.parent_map ++ [(ch.id, current)] :=
    pmInsert_append _ hfresh
  have hstable : ∀ k : Id Cost, k.id ≤ s.id_counter →
      pmGet (pmInsert s.parent_map ch.id current) k = pmGet s.parent_map k := by
    intro k hk
    rw [hpmEq]
    exact pmGet_append_ne _ (by omega)
  have hbound' : PmBound (pmInsert s.parent_map ch.id current) (s.id_counter + 1) := by
    intro e he
    rw [hpmEq] at he
    rcases List.mem_append.mp he with h1 | h1
    · exact ⟨Nat.le_succ_of_le (hInv.pmBound e h1).1, Nat.le_succ_of_le (hInv.pmBound e h1).2⟩
    · simp at h1
      subst h1
      exact ⟨by show ch.id.id ≤ s.id_counter + 1; omega,
             by show current.id.id ≤ s.id_counter + 1; omega⟩
  have hdec' : PmDecreasing (pmInsert s.parent_map ch.id current) := by
    intro e he
    rw [hpmEq] at he
    rcases List.mem_append.mp he with h1 | h1
    · exact hInv.pmDec e h1
    · simp at h1
      subst h1
      show current.id.id < ch.id.id
      omega
  have hgetch : pmGet (pmInsert s.parent_map ch.id current) ch.id = some current := by
    rw [hpmEq]
    exact pmGet_append_fresh _ hfresh
  have hlinkCur : chainLast (pmInsert s.parent_map ch.id current) current.id.id current
      = seedNode m start goal := by
    rw [chainLast_stable hInv.pmBound hstable current.id.id current hcur]
    exact hlink
  have hlinkCh : chainLast (pmInsert s.parent_map ch.id current) ch.id.id ch
      = seedNode m start goal := by
    rw [hchid]
    have hstep : chainLast (pmInsert s.parent_map ch.id current) (s.id_counter + 1) ch
        = chainLast (pmInsert s.parent_map ch.id current) s.id_counter current := by
      simp [chainLast, hgetch]
    rw [hstep,
      chainLast_fuel (pmInsert s.parent_map ch.id current) hdec' s.id_counter current.id.id
        current hcur (le_refl _)]
    exact hlinkCur
  refine ⟨⟨?_, hbound', hdec', gridInsert_uniq hInv.gridUniq, ?_, ?_, ?_⟩, hstable⟩
  · intro n hn
    rcases List.mem_cons.mp hn with h1 | h1
    · rw [h1, hchid]
    · exact Nat.le_succ_of_le (hInv.qBound n h1)
  · intro n hn hnz
    rcases List.mem_cons.mp hn with h1 | h1
    · subst h1
      refine ⟨n.id, ?_, le_refl _⟩
      rw [hchpos]
      exact gridGet_gridInsert_self _ _ _
    · by_cases hkey : m.grid_position n.state = pos
      · refine ⟨ch.id, ?_, hdom n h1 hnz hkey⟩
        rw [hkey]
        exact gridGet_gridInsert_self _ _ _
      · obtain ⟨b, hb, hbg⟩ := hInv.gridDom n h1 hnz
        refine ⟨b, ?_, hbg⟩
        rw [gridGet_gridInsert_ne _ hkey]
        exact hb
  · intro n hn
    rcases List.mem_cons.mp hn with h1 | h1
    · subst h1; exact hlinkCh
    · rw [chainLast_stable hInv.pmBound hstable n.id.id n (hInv.qBound n h1)]
      exact hInv.qLinked n h1
  · intro e he
    rw [hpmEq] at he
    rcases List.mem_append.mp he with h1 | h1
    · rw [chainLast_stable hInv.pmBound hstable e.2.id.id e.2 (hInv.pmBound e h1).2]
      exact hInv.pmLinked e h1
    · simp at h1
      subst h1
      exact hlinkCur

theorem processControl_inv (m : Model St Ct Cost Pos) (start goal : St)
    (current : Node St Ct Cost) (c : Ct) (s : AStar St Ct Cost Pos)
    (hInv : Inv m start goal s)
    (hcur : current.id.id ≤ s.id_counter)
    (hlink : chainLast s.parent_map current.id.id current = seedNode m start goal) :
    Inv m start goal (processControl m goal current c s)
    ∧ s.id_counter ≤ (processControl m goal current c s).id_counter
    ∧ (∀ k : Id Cost, k.id ≤ s.id_counter →
        pmGet (processControl m goal current c s).parent_map k = pmGet s.parent_map k) := by
  cases hi : m.integrate current.state c with
  | none =>
    have hres : processControl m goal current c s = s := by
      simp only [processControl, hi]
    rw [hres]
    exact ⟨hInv, le_refl _, fun _ _ => rfl⟩
  | some cs0 =>
    have hcs : ∀ k, (childNode m goal current c cs0 k).state = cs0 := fun _ => rfl
    cases hg : gridGet s.grid (m.grid_position cs0) with
    | none =>
      have hres : processControl m goal current c s
          = { s with id_counter := s.id_counter + 1,
                     grid := gridInsert s.grid (m.grid_position cs0)
                       (childNode m goal current c cs0 s.id_counter).id,
                     parent_map := pmInsert s.parent_map
                       (childNode m goal current c cs0 s.id_counter).id current,
                     queue := childNode m goal current c cs0 s.id_counter :: s.queue } := by
        simp only [processControl, hi, hcs, hg]
      have hdom : ∀ n ∈ s.queue, n.id.id ≠ 0 →
          m.grid_position n.state = m.grid_position cs0 →
          (childNode m goal current c cs0 s.id_counter).id.g ≤ n.id.g := by
        intro n hn hnz hkey
        obtain ⟨b, hb, _⟩ := hInv.gridDom n hn hnz
        rw [hkey, hg] at hb
        cases hb
      obtain ⟨hI, hst⟩ := insertChild_inv m start goal current
        (childNode m goal current c cs0 s.id_counter) (m.grid_position cs0) s hInv hcur hlink
        rfl rfl hdom
      rw [hres]
      exact ⟨hI, Nat.le_succ _, hst⟩
    | some best =>
      by_cases hle : best.g ≤ (childNode m goal current c cs0 s.id_counter).id.g
      · have hres : processControl m goal current c s
            = { s with id_counter := s.id_counter + 1 } := by
          simp only [processControl, hi, hcs, hg, if_pos hle]
        rw [hres]
        refine ⟨⟨?_, ?_, hInv.pmDec, hInv.gridUniq, hInv.gridDom, hInv.qLinked,
          hInv.pmLinked⟩, Nat.le_succ _, fun _ _ => rfl⟩
        · intro n hn
          exact Nat.le_succ_of_le (hInv.qBound n hn)
        · intro e he
          exact ⟨Nat.le_succ_of_le (hInv.pmBound e he).1, Nat.le_succ_of_le (hInv.pmBound e he).2⟩
      · have hres : processControl m goal current c s
            = { s with id_counter := s.id_counter + 1,
                       grid := gridInsert s.grid (m.grid_position cs0)
                         (childNode m goal current c cs0 s.id_counter).id,
                       parent_map := pmInsert s.parent_map
                         (childNode m goal current c cs0 s.id_counter).id current,
                       queue := childNode m goal current c cs0 s.id_counter :: s.queue } := by
          simp only [processControl, hi, hcs, hg, if_neg hle]
        have hdom : ∀ n ∈ s.queue, n.id.id ≠ 0 →
            m.grid_position n.state = m.grid_position cs0 →
            (childNode m goal current c cs0 s.id_counter).id.g ≤ n.id.g := by
          intro n hn hnz hkey
          obtain ⟨b, hb, hbg⟩ := hInv.gridDom n hn hnz
          rw [hkey, hg] at hb
          cases hb
          exact le_trans (le_of_lt (lt_of_not_le hle)) hbg
        obtain ⟨hI, hst⟩ := insertChild_inv m start goal current
          (childNode m goal current c cs0 s.id_counter) (m.grid_position cs0) s hInv hcur hlink
          rfl rfl hdom
        rw [hres]
        exact ⟨hI, Nat.le_succ _, hst⟩

theorem stepLoop_inv (m : Model St Ct Cost Pos) (start goal : St) (current : Node St Ct Cost) :
    ∀ (cs : List Ct) (s : AStar St Ct Cost Pos), Inv m start goal s →
      current.id.id ≤ s.id_counter →
      chainLast s.parent_map current.id.id current = seedNode m start goal →
      Inv m start goal (stepLoop m goal current cs s)
      ∧ s.id_counter ≤ (stepLoop m goal current cs s).id_counter
      ∧ (∀ k : Id Cost, k.id ≤ s.id_counter →
          pmGet (stepLoop m goal current cs s).parent_map k = pmGet s.parent_map k) := by
  intro cs
  induction cs with
  | nil =>
    intro s h1 _ _
    exact ⟨h1, le_refl _, fun _ _ => rfl⟩
  | cons c cs ih =>
    intro s h1 h2 h3
    obtain ⟨hI, hmono, hst⟩ := processControl_inv m start goal current c s h1 h2 h3
    have h2' : current.id.id ≤ (processControl m goal current c s).id_counter :=
      le_trans h2 hmono
    have h3' : chainLast (processControl m goal current c s).parent_map current.id.id current
        = seedNode m start goal := by
      rw [chainLast_stable h1.pmBound hst current.id.id current h2]
      exact h3
    obtain ⟨hI2, hmono2, hst2⟩ := ih (processControl m goal current c s) hI h2' h3'
    simp only [stepLoop]
    refine ⟨hI2, le_trans hmono hmono2, ?_⟩
    intro k hk
    rw [hst2 k (le_trans hk hmono), hst k hk]

theorem step_inv (m : Model St Ct Cost Pos) (start goal : St)
    (sampler : Model St Ct Cost Pos → St → List Ct) (current : Node St Ct Cost)
    (s : AStar St Ct Cost Pos) (hInv : Inv m start goal s)
    (hcur : current.id.id ≤ s.id_counter)
    (hlink : chainLast s.parent_map current.id.id current = seedNode m start goal) :
    Inv m start goal (step m goal sampler current s).2 := by
  unfold step
  by_cases hc : m.converge current.state goal = true
  · simp only [hc, if_pos rfl]
    exact hInv
  · simp only [hc, Bool.false_eq_true, if_false]
    exact (stepLoop_inv m start goal current (sampler m current.state) s hInv hcur hlink).1

theorem reach_inv {m : Model St Ct Cost Pos} {goal start : St}
    {sampler : Model St Ct Cost Pos → St → List Ct} {s : AStar St Ct Cost Pos}
    (h : Reach m goal sampler start s) : Inv m start goal s := by
  induction h with
  | init =>
    refine ⟨?_, ?_, ?_, ?_, ?_, ?_, ?_⟩
    · intro n hn
      simp [seedState] at hn
      subst hn
      exact le_refl _
    · intro e he; simp [seedState] at he
    · intro e he; simp [seedState] at he
    · simp [seedState]
    · intro n hn hnz
      simp [seedState] at hn
      subst hn
      exact absurd rfl hnz
    · intro n hn
      simp [seedState] at hn
      subst hn
      rfl
    · intro e he; simp [seedState] at he
  | expand hr hp ih =>
    rename_i s' c rest
    have hmem := (popMin_spec hp).1
    have hsub := (popMin_spec hp).2.1
    have hmid : Inv m start goal { s' with queue := rest } := by
      refine ⟨?_, ih.pmBound, ih.pmDec, ih.gridUniq, ?_, ?_, ih.pmLinked⟩
      · intro n hn
        exact ih.qBound n (hsub n hn)
      · intro n hn hnz
        exact ih.gridDom n (hsub n hn) hnz
      · intro n hn
        exact ih.qLinked n (hsub n hn)
    exact step_inv m start goal sampler c { s' with queue := rest } hmid
      (ih.qBound c hmem) (ih.qLinked c hmem)

theorem gridGet_countP {g : List (Pos × Id Cost)} {p : Pos} {v : Id Cost}
    (hu : g.Pairwise (fun a b => a.1 ≠ b.1)) (h : gridGet g p = some v) :
    g.countP (fun e => decide (e.1 = p)) = 1 := by
  induction g with
  | nil => simp [gridGet] at h
  | cons e rest ih =>
    obtain ⟨hhead, htail⟩ := List.pairwise_cons.mp hu
    by_cases he : e.1 = p
    · rw [List.countP_cons_of_pos _ _ (by simp [he])]
      have hz : rest.countP (fun e => decide (e.1 = p)) = 0 := by
        apply List.countP_eq_zero.mpr
        intro a ha
        simp only [decide_eq_true_eq]
        rw [← he]
        exact fun hq => hhead a ha hq.symm
      omega
    · rw [List.countP_cons_of_neg _ _ (by simp [he])]
      simp only [gridGet, if_neg he] at h
      exact ih htail h

/-- Concrete reachable state fact: one expansion under `M1`. -/
theorem reach_s1c : Reach M1 2 sp1 0 s1c := by
  have h0 : Reach M1 2 sp1 0 (seedState M1 0 2) := Reach.init
  exact Reach.expand h0
    (show popMin (seedState M1 0 2).queue = some (seedNode M1 0 2, []) from rfl)

/-- Concrete reachable state fact: two expansions under `M2`. -/
theorem reach_s2cM2 : Reach M2 2 sp1 0 s2cM2 := by
  have h0 : Reach M2 2 sp1 0 (seedState M2 0 2) := Reach.init
  have h1 : Reach M2 2 sp1 0 s1cM2 := Reach.expand h0
    (show popMin (seedState M2 0 2).queue = some (seedNode M2 0 2, []) from rfl)
  exact Reach.expand h1
    (show popMin s1cM2.queue = some (⟨⟨1, 2, 1⟩, 1, 1⟩, []) from rfl)

/-- C4: at every reachable engine state the parent-link table is acyclic:
every recorded parent link maps a child key to a parent node whose integer
identity is strictly smaller, so no parent chain can form a cycle. -/
theorem c4_parent_ids_decrease {m : Model St Ct Cost Pos} {goal start : St}
    {sampler : Model St Ct Cost Pos → St → List Ct} {s : AStar St Ct Cost Pos}
    (h : Reach m goal sampler start s) :
    ∀ e ∈ s.parent_map, e.2.id.id < e.1.id :=
  (reach_inv h).pmDec

/-- Witness for C4 at the concrete reachable state `s1c`. -/
theorem c4_parent_ids_decrease_witness :
    (⟨⟨1, 2, 1⟩, seedNode M1 0 2⟩ : Id Nat × Node Nat Nat Nat) ∈ s1c.parent_map
    ∧ (seedNode M1 0 2).id.id < (1 : Nat) := by
  have hm : (⟨⟨1, 2, 1⟩, seedNode M1 0 2⟩ : Id Nat × Node Nat Nat Nat) ∈ s1c.parent_map := by
    decide
  exact ⟨hm, c4_parent_ids_decrease reach_s1c ⟨⟨1, 2, 1⟩, seedNode M1 0 2⟩ hm⟩

/-- Multi-step successor relation within one planning run: `s'` is reached
from `s` by zero or more pop-and-step transitions.  Every node ever enqueued
onto the open set sits in the queue of some reachable state, and every later
lookup of the run happens at a `ReachFrom`-successor of that state. -/
inductive ReachFrom (m : Model St Ct Cost Pos) (goal : St)
    (sampler : Model St Ct Cost Pos → St → List Ct) (s : AStar St Ct Cost Pos) :
    AStar St Ct Cost Pos → Prop where
  | refl : ReachFrom m goal sampler s s
  | expand {s' : AStar St Ct Cost Pos} {c : Node St Ct Cost} {rest : List (Node St Ct Cost)} :
      ReachFrom m goal sampler s s' → popMin s'.queue = some (c, rest) →
      ReachFrom m goal sampler s (step m goal sampler c { s' with queue := rest }).2

theorem reach_reachFrom {m : Model St Ct Cost Pos} {goal start : St}
    {sampler : Model St Ct Cost Pos → St → List Ct} {s s' : AStar St Ct Cost Pos}
    (h : Reach m goal sampler start s) (h2 : ReachFrom m goal sampler s s') :
    Reach m goal sampler start s' := by
  induction h2 with
  | refl => exact h
  | expand h2 hp ih => exact Reach.expand ih hp

theorem processControl_grid_mono (m : Model St Ct Cost Pos) (goal : St)
    (current : Node St Ct Cost) (c : Ct) (s : AStar St Ct Cost Pos)
    {k : Pos} {b : Id Cost} (hb : gridGet s.grid k = some b) :
    ∃ b', gridGet (processControl m goal current c s).grid k = some b' ∧ b'.g ≤ b.g := by
  cases hi : m.integrate current.state c with
  | none =>
    have hres : processControl m goal current c s = s := by
      simp only [processControl, hi]
    rw [hres]
    exact ⟨b, hb, le_refl _⟩
  | some cs0 =>
    have hcs : ∀ kk, (childNode m goal current c cs0 kk).state = cs0 := fun _ => rfl
    cases hg : gridGet s.grid (m.grid_position cs0) with
    | none =>
      have hres : (processControl m goal current c s).grid
          = gridInsert s.grid (m.grid_position cs0)
              (childNode m goal current c cs0 s.id_counter).id := by
        simp only [processControl, hi, hcs, hg]
      by_cases hk : k = m.grid_position cs0
      · rw [hk, hg] at hb
        cases hb
      · refine ⟨b, ?_, le_refl _⟩
        rw [hres, gridGet_gridInsert_ne _ hk]
        exact hb
    | some best =>
      by_cases hle : best.g ≤ (childNode m goal current c cs0 s.id_counter).id.g
      · have hres : processControl m goal current c s
            = { s with id_counter := s.id_counter + 1 } := by
          simp only [processControl, hi, hcs, hg, if_pos hle]
        rw [hres]
        exact ⟨b, hb, le_refl _⟩
      · have hres : (processControl m goal current c s).grid
            = gridInsert s.grid (m.grid_position cs0)
                (childNode m goal current c cs0 s.id_counter).id := by
          simp only [processControl, hi, hcs, hg, if_neg hle]
        by_cases hk : k = m.grid_position cs0
        · subst hk
          have hbb : b = best := Option.some_inj.mp (hb.symm.trans hg)
          refine ⟨(childNode m goal current c cs0 s.id_counter).id, ?_, ?_⟩
          · rw [hres]
            exact gridGet_gridInsert_self _ _ _
          · rw [hbb]
            exact le_of_lt (lt_of_not_le hle)
        · refine ⟨b, ?_, le_refl _⟩
          rw [hres, gridGet_gridInsert_ne _ hk]
          exact hb

theorem stepLoop_grid_mono (m : Model St Ct Cost Pos) (goal : St)
    (current : Node St Ct Cost) :
    ∀ (cs : List Ct) (s : AStar St Ct Cost Pos) {k : Pos} {b : Id Cost},
      gridGet s.grid k = some b →
      ∃ b', gridGet (stepLoop m goal current cs s).grid k = some b' ∧ b'.g ≤ b.g := by
  intro cs
  induction cs with
  | nil =>
    intro s k b hb
    exact ⟨b, hb, le_refl _⟩
  | cons c cs ih =>
    intro s k b hb
    obtain ⟨b1, hb1, h1⟩ := processControl_grid_mono m goal current c s hb
    obtain ⟨b2, hb2, h2⟩ := ih _ hb1
    refine ⟨b2, ?_, le_trans h2 h1⟩
    simpa [stepLoop] using hb2

theorem step_grid_mono (m : Model St Ct Cost Pos) (goal : St)
    (sampler : Model St Ct Cost Pos → St → List Ct) (current : Node St Ct Cost)
    (s : AStar St Ct Cost Pos) {k : Pos} {b : Id Cost} (hb : gridGet s.grid k = some b) :
    ∃ b', gridGet (step m goal sampler current s).2.grid k = some b' ∧ b'.g ≤ b.g := by
  unfold step
  by_cases hc : m.converge current.state goal = true
  · simp only [hc, if_pos rfl]
    exact ⟨b, hb, le_refl _⟩
  · simp only [hc, Bool.false_eq_true, if_false]
    exact stepLoop_grid_mono m goal current _ _ hb

theorem reachFrom_grid_mono {m : Model St Ct Cost Pos} {goal : St}
    {sampler : Model St Ct Cost Pos → St → List Ct} {s s' : AStar St Ct Cost Pos}
    (h : ReachFrom m goal sampler s s') {k : Pos} {b : Id Cost}
    (hb : gridGet s.grid k = some b) :
    ∃ b', gridGet s'.grid k = some b' ∧ b'.g ≤ b.g := by
  induction h with
  | refl => exact ⟨b, hb, le_refl _⟩
  | expand h2 hp ih =>
    rename_i s1 c rest
    obtain ⟨b1, hb1, h1⟩ := ih
    obtain ⟨b2, hb2, h2'⟩ :=
      step_grid_mono m goal sampler c { s1 with queue := rest } (k := k) (b := b1) hb1
    exact ⟨b2, hb2, le_trans h2' h1⟩

/-- C6 (amended): within one planning run, every node that was enqueued onto
the open set other than the seeded start node (identity `0`) — that is, every
node in the queue of some reachable state — has, at that state and at every
later reachable state of the run, exactly one best-per-cell entry under its
discretization key, whose recorded `g` is at most the node's own `g` (later
overwrites only decrease the recorded `g`). -/
theorem c6_amended {m : Model St Ct Cost Pos} {goal start : St}
    {sampler : Model St Ct Cost Pos → St → List Ct} {s s' : AStar St Ct Cost Pos}
    (h : Reach m goal sampler start s) (h2 : ReachFrom m goal sampler s s') :
    ∀ n ∈ s.queue, n.id.id ≠ 0 →
      s'.grid.countP (fun e => decide (e.1 = m.grid_position n.state)) = 1
      ∧ ∃ b, gridGet s'.grid (m.grid_position n.state) = some b ∧ b.g ≤ n.id.g := by
  intro n hn hnz
  obtain ⟨b, hb, hbg⟩ := (reach_inv h).gridDom n hn hnz
  obtain ⟨b', hb', hbg'⟩ := reachFrom_grid_mono h2 hb
  exact ⟨gridGet_countP (reach_inv (reach_reachFrom h h2)).gridUniq hb',
         b', hb', le_trans hbg' hbg⟩

/-- Counterexample for C6 as stated: at the reachable seeded state the start
node sits in the open set with no best-per-cell entry at all for its
discretization key. -/
theorem c6_counterexample :
    Reach M1 2 sp1 0 (seedState M1 0 2)
    ∧ seedNode M1 0 2 ∈ (seedState M1 0 2).queue
    ∧ gridGet (seedState M1 0 2).grid (M1.grid_position (seedNode M1 0 2).state) = none :=
  ⟨Reach.init, by decide, by decide⟩

/-- Witness for C6 (amended): the child enqueued at `s1c` keeps its single
best-per-cell entry with unchanged `g` at the later state `s2c`, where it has
already been popped off the open set. -/
theorem c6_amended_witness :
    (⟨⟨1, 2, 1⟩, 1, 1⟩ : Node Nat Nat Nat) ∈ s1c.queue
    ∧ (⟨⟨1, 2, 1⟩, 1, 1⟩ : Node Nat Nat Nat) ∉ s2c.queue
    ∧ s2c.grid.countP (fun e => decide (e.1 = M1.grid_position (1 : Nat))) = 1
    ∧ gridGet s2c.grid (M1.grid_position (1 : Nat)) = some ⟨1, 2, 1⟩
    ∧ (⟨1, 2, 1⟩ : Id Nat).g ≤ (1 : Nat) := by
  have hrf : ReachFrom M1 2 sp1 s1c s2c :=
    ReachFrom.expand ReachFrom.refl
      (show popMin s1c.queue = some (⟨⟨1, 2, 1⟩, 1, 1⟩, []) from rfl)
  have h := c6_amended reach_s1c hrf ⟨⟨1, 2, 1⟩, 1, 1⟩ (by decide) (by decide)
  obtain ⟨b, hb, hbg⟩ := h.2
  have hgb : gridGet s2c.grid (M1.grid_position (1 : Nat)) = some ⟨1, 2, 1⟩ := by decide
  have hb' : b = ⟨1, 2, 1⟩ := by
    have h3 := hgb.symm.trans hb
    exact (Option.some_inj.mp h3).symm
  exact ⟨by decide, by decide, h.1, hgb, hb' ▸ hbg⟩

/-- C7: at every reachable engine state the start node's identity is never a
key of the parent-link table, its lookup finds no entry, and reconstruction
from any popped node walks the parent chain exactly to the seeded start node
(whose own lookup finds nothing), so the returned trajectory begins at the
start state with the placeholder control. -/
theorem c7_start_has_no_parent {m : Model St Ct Cost Pos} {goal start : St}
    {sampler : Model St Ct Cost Pos → St → List Ct} {s : AStar St Ct Cost Pos}
    (h : Reach m goal sampler start s) :
    (∀ e ∈ s.parent_map, e.1.id ≠ 0)
    ∧ pmGet s.parent_map (seedNode m start goal : Node St Ct Cost).id = none
    ∧ ∀ (c : Node St Ct Cost) (rest : List (Node St Ct Cost)),
        popMin s.queue = some (c, rest) →
          chainLast s.parent_map c.id.id c = seedNode m start goal
          ∧ pmGet s.parent_map (chainLast s.parent_map c.id.id c).id = none
          ∧ (unwind_trajectory s.parent_map m c).trajectory.head?
              = some (start, (default : Ct)) := by
  have hI := reach_inv h
  refine ⟨?_, ?_, ?_⟩
  · intro e he
    have := hI.pmDec e he
    omega
  · exact pmGet_zero hI.pmDec rfl
  · intro c rest hp
    have hc : c ∈ s.queue := (popMin_spec hp).1
    have hlink := hI.qLinked c hc
    refine ⟨hlink, chainLast_no_parent _ hI.pmDec c.id.id c (le_refl _), ?_⟩
    rw [unwind_trajectory_eq]
    simp only [List.head?_reverse, List.getLast?_map, chainList_getLast, Option.map_some']
    rw [hlink]
    rfl

/-- Witness for C7 at the concrete reachable state `s1c`. -/
theorem c7_start_has_no_parent_witness :
    chainLast s1c.parent_map 1 ⟨⟨1, 2, 1⟩, 1, 1⟩ = seedNode M1 0 2
    ∧ pmGet s1c.parent_map (seedNode M1 0 2).id = none
    ∧ (unwind_trajectory s1c.parent_map M1 ⟨⟨1, 2, 1⟩, 1, 1⟩).trajectory.head?
        = some (0, 0) := by
  have h := c7_start_has_no_parent reach_s1c
  have h3 := h.2.2 ⟨⟨1, 2, 1⟩, 1, 1⟩ [] (by decide)
  exact ⟨h3.1, h.2.1, h3.2.2⟩

/-- C2 (amended): the trajectory returned by reconstruction is the reverse of
the parent chain's `(state, control)` pairs (chronological order ending at the
given node), its total cost is `Model.cost` re-summed over consecutive chain
pairs with the arguments in walk order (`cost child_state parent_state`, not
`cost parent_state child_state`), and the walk stops exactly at the chain's
last node, the one with no parent-link entry. -/
theorem c2_amended {m : Model St Ct Cost Pos} {goal start : St}
    {sampler : Model St Ct Cost Pos → St → List Ct} {s : AStar St Ct Cost Pos}
    (h : Reach m goal sampler start s) (n : Node St Ct Cost) :
    (unwind_trajectory s.parent_map m n).trajectory
        = ((chainList s.parent_map n.id.id n).map fun nd => (nd.state, nd.control)).reverse
    ∧ (unwind_trajectory s.parent_map m n).cost
        = chainCostFrom m default (chainList s.parent_map n.id.id n)
    ∧ (chainList s.parent_map n.id.id n).head? = some n
    ∧ (chainList s.parent_map n.id.id n).getLast?
        = some (chainLast s.parent_map n.id.id n)
    ∧ pmGet s.parent_map (chainLast s.parent_map n.id.id n).id = none := by
  have hd := (reach_inv h).pmDec
  refine ⟨?_, ?_, ?_, chainList_getLast _ _ _,
    chainLast_no_parent _ hd n.id.id n (le_refl _)⟩
  · rw [unwind_trajectory_eq]
  · rw [unwind_trajectory_eq]
  · rw [chainList_cons s.parent_map n.id.id n]
    rfl

/-- Counterexample for C2 as stated: with the asymmetric-cost model `M2` the
engine's returned total cost re-sums `Model.cost(child, parent)` along the
walk (here `10`), while the claim's sum of `Model.cost(from, to)` over
consecutive `(parent, child)` pairs along the chronological trajectory is
`2`. -/
theorem c2_counterexample :
    optimize M2 0 2 sp1 5 (new : AStar Nat Nat Nat Nat)
      = some (PathResult.final ⟨10, [(0, 0), (1, 1), (2, 1)]⟩)
    ∧ unwind_trajectory s2cM2.parent_map M2 ⟨⟨2, 2, 2⟩, 2, 1⟩
      = ⟨10, [(0, 0), (1, 1), (2, 1)]⟩
    ∧ specForwardCost M2 [(0, 0), (1, 1), (2, 1)] = 2
    ∧ (10 : Nat) ≠ 2 :=
  ⟨by decide, by decide, by decide, by decide⟩

/-- Witness for C2 (amended) at the concrete reachable state `s2cM2`. -/
theorem c2_amended_witness :
    (unwind_trajectory s2cM2.parent_map M2 ⟨⟨2, 2, 2⟩, 2, 1⟩).trajectory
        = ((chainList s2cM2.parent_map 2 ⟨⟨2, 2, 2⟩, 2, 1⟩).map
            fun nd => (nd.state, nd.control)).reverse
    ∧ (unwind_trajectory s2cM2.parent_map M2 ⟨⟨2, 2, 2⟩, 2, 1⟩).cost
        = chainCostFrom M2 default (chainList s2cM2.parent_map 2 ⟨⟨2, 2, 2⟩, 2, 1⟩)
    ∧ pmGet s2cM2.parent_map (chainLast s2cM2.parent_map 2 ⟨⟨2, 2, 2⟩, 2, 1⟩).id = none := by
  have h := c2_amended reach_s2cM2 ⟨⟨2, 2, 2⟩, 2, 1⟩
  exact ⟨h.1, h.2.1, h.2.2.2.2⟩

/-! Lemmas for the incremental/complete equivalence: behaviour of expansion
on states whose parent-link table is still empty. -/

theorem pmInsert_ne_nil (pm : List (Id Cost × Node St Ct Cost)) (k : Id Cost)
    (v : Node St Ct Cost) : pmInsert pm k v ≠ [] := by
  cases pm with
  | nil => simp [pmInsert]
  | cons e rest =>
    simp only [pmInsert]
    by_cases h : idKeyMatches e.1 k = true <;> simp [h]

theorem processControl_pm_cases (m : Model St Ct Cost Pos) (goal : St)
    (current : Node St Ct Cost) (c : Ct) (s : AStar St Ct Cost Pos) :
    (processControl m goal current c s).parent_map = s.parent_map
    ∨ ∃ k v, (processControl m goal current c s).parent_map = pmInsert s.parent_map k v := by
  cases hi : m.integrate current.state c with
  | none => left; simp [processControl, hi]
  | some cs0 =>
    simp only [processControl, hi]
    cases hg : gridGet s.grid
        (m.grid_position (childNode m goal current c cs0 s.id_counter).state) with
    | none => right; exact ⟨_, _, rfl⟩
    | some best =>
      by_cases hle : best.g ≤ (childNode m goal current c cs0 s.id_counter).id.g
      · left; simp [hle]
      · right
        refine ⟨(childNode m goal current c cs0 s.id_counter).id, current, ?_⟩
        simp [hle]

theorem processControl_pm_nonempty (m : Model St Ct Cost Pos) (goal : St)
    (current : Node St Ct Cost) (c : Ct) (s : AStar St Ct Cost Pos)
    (h : s.parent_map ≠ []) : (processControl m goal current c s).parent_map ≠ [] := by
  rcases processControl_pm_cases m goal current c s with h1 | ⟨k, v, h1⟩
  · rw [h1]; exact h
  · rw [h1]; exact pmInsert_ne_nil _ _ _

theorem stepLoop_pm_nonempty (m : Model St Ct Cost Pos) (goal : St)
    (current : Node St Ct Cost) :
    ∀ (cs : List Ct) (s : AStar St Ct Cost Pos), s.parent_map ≠ [] →
      (stepLoop m goal current cs s).parent_map ≠ [] := by
  intro cs
  induction cs with
  | nil => intro s h; exact h
  | cons c cs ih =>
    intro s h
    simp only [stepLoop]
    exact ih _ (processControl_pm_nonempty m goal current c s h)

theorem stepLoop_pm_nil (m : Model St Ct Cost Pos) (goal : St)
    (current : Node St Ct Cost) (cs : List Ct) (s : AStar St Ct Cost Pos)
    (h : (stepLoop m goal current cs s).parent_map = []) : s.parent_map = [] := by
  by_contra hne
  exact stepLoop_pm_nonempty m goal current cs s hne h

theorem stepLoop_all_none (m : Model St Ct Cost Pos) (goal : St)
    (current : Node St Ct Cost) :
    ∀ (cs : List Ct) (s : AStar St Ct Cost Pos),
      (∀ c ∈ cs, m.integrate current.state c = none) →
      stepLoop m goal current cs s = s := by
  intro cs
  induction cs with
  | nil => intro s _; rfl
  | cons c cs ih =>
    intro s h
    have h1 : processControl m goal current c s = s := by
      simp [processControl, h c (List.mem_cons_self _ _)]
    simp only [stepLoop, h1]
    exact ih s fun c hc => h c (List.mem_cons_of_mem _ hc)

theorem stepLoop_empty_pm (m : Model St Ct Cost Pos) (goal : St)
    (current : Node St Ct Cost) :
    ∀ (cs : List Ct) (s : AStar St Ct Cost Pos), s.parent_map = [] → s.grid = [] →
      (stepLoop m goal current cs s).parent_map = [] →
      stepLoop m goal current cs s = s ∧ ∀ c ∈ cs, m.integrate current.state c = none := by
  intro cs
  induction cs with
  | nil => intro s _ _ _; exact ⟨rfl, by simp⟩
  | cons c cs ih =>
    intro s hpm hgrid hres
    cases hi : m.integrate current.state c with
    | none =>
      have h1 : processControl m goal current c s = s := by
        simp [processControl, hi]
      rw [stepLoop, h1] at hres ⊢
      obtain ⟨ha, hb⟩ := ih s hpm hgrid hres
      refine ⟨ha, ?_⟩
      intro c' hc'
      rcases List.mem_cons.mp hc' with h2 | h2
      · subst h2; exact hi
      · exact hb c' h2
    | some cs0 =>
      exfalso
      have hg : gridGet s.grid
          (m.grid_position (childNode m goal current c cs0 s.id_counter).state) = none := by
        rw [hgrid]; rfl
      have h1 : (processControl m goal current c s).parent_map
          = pmInsert s.parent_map (childNode m goal current c cs0 s.id_counter).id current := by
        simp [processControl, hi, hg]
      have h2 : (processControl m goal current c s).parent_map ≠ [] := by
        rw [h1]; exact pmInsert_ne_nil _ _ _
      rw [stepLoop] at hres
      exact stepLoop_pm_nonempty m goal current cs _ h2 hres

theorem step_pm_nil (m : Model St Ct Cost Pos) (goal : St)
    (sampler : Model St Ct Cost Pos → St → List Ct) (current : Node St Ct Cost)
    (s : AStar St Ct Cost Pos)
    (h : (step m goal sampler current s).2.parent_map = []) : s.parent_map = [] := by
  unfold step at h
  by_cases hc : m.converge current.state goal = true
  · simp only [hc, if_pos rfl] at h
    exact h
  · simp only [hc, Bool.false_eq_true, if_false] at h
    exact stepLoop_pm_nil m goal current _ _ h

/-- State invariant for the equivalence proof: as long as the parent-link
table is still empty, nothing was ever expanded, so the best-per-cell map is
empty and the open set holds at most the seeded start node. -/
def SeedOnly (m : Model St Ct Cost Pos) (start goal : St) (s : AStar St Ct Cost Pos) : Prop :=
  s.parent_map = [] →
    s.grid = [] ∧ (s.queue = [] ∨ s.queue = [seedNode m start goal])

theorem seedOnly_step (m : Model St Ct Cost Pos) (start goal : St)
    (sampler : Model St Ct Cost Pos → St → List Ct) {s : AStar St Ct Cost Pos}
    {c : Node St Ct Cost} {rest : List (Node St Ct Cost)}
    (hSO : SeedOnly m start goal s) (hp : popMin s.queue = some (c, rest)) :
    SeedOnly m start goal (step m goal sampler c { s with queue := rest }).2 := by
  intro hpm
  have hspm : s.parent_map = []
  · have := step_pm_nil m goal sampler c { s with queue := rest } hpm
    exact this
  obtain ⟨hgrid, hq⟩ := hSO hspm
  rcases hq with hq | hq
  · rw [hq] at hp
    simp [popMin] at hp
  · rw [hq] at hp
    have hp3 := hp
    rw [show popMin [seedNode m start goal]
        = some (seedNode m start goal, ([] : List (Node St Ct Cost))) from rfl] at hp3
    cases hp3
    unfold step at hpm ⊢
    by_cases hcv : m.converge (seedNode m start goal).state goal = true
    · simp only [hcv, if_pos rfl] at hpm ⊢
      exact ⟨hgrid, Or.inl rfl⟩
    · simp only [hcv, Bool.false_eq_true, if_false] at hpm ⊢
      have hsrc : ({ s with queue := ([] : List (Node St Ct Cost)) }).parent_map = [] := hspm
      have hsrcg : ({ s with queue := ([] : List (Node St Ct Cost)) }).grid = [] := hgrid
      obtain ⟨heq, _⟩ := stepLoop_empty_pm m goal (seedNode m start goal)
        (sampler m (seedNode m start goal).state) _ hsrc hsrcg hpm
      rw [heq]
      exact ⟨hgrid, Or.inl rfl⟩

theorem noFinal_empty (m : Model St Ct Cost Pos) (start goal : St)
    (sampler : Model St Ct Cost Pos → St → List Ct)
    (hF : ∀ c ∈ sampler m start, m.integrate start c = none)
    (hcv : m.converge start goal = false) :
    ∀ (fuel : Nat) (s : AStar St Ct Cost Pos),
      s.parent_map = [] → s.queue = [] → s.grid = [] →
      iterateNext m start goal sampler fuel s = none := by
  intro fuel
  induction fuel with
  | zero => intro s _ _ _; rfl
  | succ fuel ih =>
    intro s hpm hq hg
    have hseed : seedIfEmpty m start goal s = pushSeed m start goal s := by
      simp [seedIfEmpty, hpm, hq]
    have hq0 : (seedIfEmpty m start goal s).queue = [seedNode m start goal] := by
      rw [hseed]
      simp [pushSeed, hq]
    have hpop : popMin (seedIfEmpty m start goal s).queue
        = some (seedNode m start goal, []) := by
      rw [hq0]; rfl
    have hst : (seedNode m start goal : Node St Ct Cost).state = start := rfl
    have hstep : step m goal sampler (seedNode m start goal)
        { seedIfEmpty m start goal s with queue := ([] : List (Node St Ct Cost)) }
        = (false, { seedIfEmpty m start goal s with queue := ([] : List (Node St Ct Cost)) }) := by
      unfold step
      rw [hst, hcv]
      simp only [Bool.false_eq_true, if_false]
      rw [stepLoop_all_none m goal (seedNode m start goal) (sampler m start) _ hF]
    simp only [iterateNext, next_trajectory, hpop, hstep]
    apply ih
    · show (seedIfEmpty m start goal s).parent_map = []
      rw [hseed]; exact hpm
    · rfl
    · show (seedIfEmpty m start goal s).grid = []
      rw [hseed]; exact hg

theorem optimizeLoop_empty_no_final (m : Model St Ct Cost Pos) (goal : St)
    (sampler : Model St Ct Cost Pos → St → List Ct) (fuel : Nat)
    {s : AStar St Ct Cost Pos} (hq : s.queue = []) (t : Trajectory St Ct Cost) :
    optimizeLoop m goal sampler fuel s ≠ some (PathResult.final t) := by
  cases fuel with
  | zero => simp [optimizeLoop]
  | succ fuel =>
    have hp : popMin s.queue = none := by rw [hq]; rfl
    simp [optimizeLoop, hp]

theorem loopSim (m : Model St Ct Cost Pos) (start goal : St)
    (sp : Model St Ct Cost Pos → St → List Ct) :
    ∀ (fuel : Nat) (s : AStar St Ct Cost Pos), SeedOnly m start goal s →
      (s.parent_map.isEmpty && s.queue.isEmpty) = false →
      (∀ t, optimizeLoop m goal sp fuel s = some (PathResult.final t)
            ↔ iterateNext m start goal sp fuel s = some (PathResult.final t))
      ∧ (∀ t, optimizeLoop m goal sp fuel s = some (PathResult.final t)
            → optTrace m goal sp fuel s = nextTrace m start goal sp fuel s) := by
  intro fuel
  induction fuel with
  | zero =>
    intro s _ _
    constructor
    · intro t
      simp [optimizeLoop, iterateNext]
    · intro t h
      simp [optimizeLoop] at h
  | succ fuel ih =>
    intro s hSO hne
    have hseed : seedIfEmpty m start goal s = s := by
      simp [seedIfEmpty, hne]
    cases hp : popMin s.queue with
    | none =>
      constructor
      · intro t
        simp [optimizeLoop, iterateNext, next_trajectory, hseed, hp]
      · intro t h
        simp [optimizeLoop, hp] at h
    | some p =>
      rcases p with ⟨c, rest⟩
      cases hb : (step m goal sp c { s with queue := rest }).1 with
      | true =>
        have hopt : optimizeLoop m goal sp (fuel + 1) s
            = some (PathResult.final (unwind_trajectory
                (step m goal sp c { s with queue := rest }).2.parent_map m c)) := by
          simp [optimizeLoop, hp, hb]
        have hitr : iterateNext m start goal sp (fuel + 1) s
            = some (PathResult.final (unwind_trajectory
                (step m goal sp c { s with queue := rest }).2.parent_map m c)) := by
          simp [iterateNext, next_trajectory, hseed, hp, hb]
        have hoptT : optTrace m goal sp (fuel + 1) s = [c] := by
          simp [optTrace, hp, hb]
        have hnT : nextTrace m start goal sp (fuel + 1) s = [c] := by
          simp [nextTrace, hseed, hp, hb]
        rw [hopt, hitr, hoptT, hnT]
        exact ⟨fun t => Iff.rfl, fun t _ => rfl⟩
      | false =>
        have hopt : optimizeLoop m goal sp (fuel + 1) s
            = optimizeLoop m goal sp fuel (step m goal sp c { s with queue := rest }).2 := by
          simp [optimizeLoop, hp, hb]
        have hitr : iterateNext m start goal sp (fuel + 1) s
            = iterateNext m start goal sp fuel (step m goal sp c { s with queue := rest }).2 := by
          simp [iterateNext, next_trajectory, hseed, hp, hb]
        have hoptT : optTrace m goal sp (fuel + 1) s
            = c :: optTrace m goal sp fuel (step m goal sp c { s with queue := rest }).2 := by
          simp [optTrace, hp, hb]
        have hnT : nextTrace m start goal sp (fuel + 1) s
            = c :: nextTrace m start goal sp fuel (step m goal sp c { s with queue := rest }).2 := by
          simp [nextTrace, hseed, hp, hb]
        have hSO' : SeedOnly m start goal (step m goal sp c { s with queue := rest }).2 :=
          seedOnly_step m start goal sp hSO hp
        rw [hopt, hitr, hoptT, hnT]
        by_cases hne2 : ((step m goal sp c { s with queue := rest }).2.parent_map.isEmpty
            && (step m goal sp c { s with queue := rest }).2.queue.isEmpty) = false
        · obtain ⟨hiff, htr⟩ := ih _ hSO' hne2
          exact ⟨hiff, fun t h => by rw [htr t h]⟩
        · have hboth : (step m goal sp c { s with queue := rest }).2.parent_map = []
              ∧ (step m goal sp c { s with queue := rest }).2.queue = [] := by
            have h2 : ((step m goal sp c { s with queue := rest }).2.parent_map.isEmpty
                && (step m goal sp c { s with queue := rest }).2.queue.isEmpty) = true := by
              cases h3 : ((step m goal sp c { s with queue := rest }).2.parent_map.isEmpty
                  && (step m goal sp c { s with queue := rest }).2.queue.isEmpty) with
              | false => exact absurd h3 hne2
              | true => rfl
            rw [Bool.and_eq_true] at h2
            exact ⟨List.isEmpty_iff.mp h2.1, List.isEmpty_iff.mp h2.2⟩
          have hspm : s.parent_map = [] :=
            step_pm_nil m goal sp c { s with queue := rest } hboth.1
          obtain ⟨hgrid, hqcase⟩ := hSO hspm
          have hq : s.queue = [seedNode m start goal] := by
            rcases hqcase with h4 | h4
            · rw [h4] at hp
              simp [popMin] at hp
            · exact h4
          rw [hq] at hp
          have hp3 := hp
          rw [show popMin [seedNode m start goal]
              = some (seedNode m start goal, ([] : List (Node St Ct Cost))) from rfl] at hp3
          cases hp3
          have hcv : m.converge start goal = false := by
            have hb1 := hb
            unfold step at hb1
            by_cases h5 : m.converge (seedNode m start goal).state goal = true
            · rw [if_pos h5] at hb1
              simp at hb1
            · cases h7 : m.converge (seedNode m start goal).state goal with
              | false => exact h7
              | true => exact absurd h7 h5
          have hstep2 : (step m goal sp (seedNode m start goal)
                { s with queue := ([] : List (Node St Ct Cost)) }).2
              = stepLoop m goal (seedNode m start goal)
                  (sp m (seedNode m start goal).state)
                  { s with queue := ([] : List (Node St Ct Cost)) } := by
            unfold step
            rw [show m.converge (seedNode m start goal).state goal = false from hcv]
            simp
          obtain ⟨heq, hFs⟩ := stepLoop_empty_pm m goal (seedNode m start goal)
            (sp m (seedNode m start goal).state)
            { s with queue := ([] : List (Node St Ct Cost)) } hspm hgrid
            (by rw [← hstep2]; exact hboth.1)
          have hF : ∀ ctl ∈ sp m start, m.integrate start ctl = none := hFs
          have hgr : (step m goal sp (seedNode m start goal)
              { s with queue := ([] : List (Node St Ct Cost)) }).2.grid = [] := by
            rw [hstep2, heq]
            exact hgrid
          constructor
          · intro t
            constructor
            · intro h
              exact absurd h (optimizeLoop_empty_no_final m goal sp fuel hboth.2 t)
            · intro h
              have hnone := noFinal_empty m start goal sp hF hcv fuel
                (step m goal sp (seedNode m start goal)
                  { s with queue := ([] : List (Node St Ct Cost)) }).2
                hboth.1 hboth.2 hgr
              rw [hnone] at h
              cases h
          · intro t h
            exact absurd h (optimizeLoop_empty_no_final m goal sp fuel hboth.2 t)

theorem iterateNext_new (m : Model St Ct Cost Pos) (start goal : St)
    (sp : Model St Ct Cost Pos → St → List Ct) (fuel : Nat) :
    iterateNext m start goal sp fuel (new : AStar St Ct Cost Pos)
      = iterateNext m start goal sp fuel (seedState m start goal) := by
  cases fuel with
  | zero => rfl
  | succ fuel => rfl

theorem nextTrace_new (m : Model St Ct Cost Pos) (start goal : St)
    (sp : Model St Ct Cost Pos → St → List Ct) (fuel : Nat) :
    nextTrace m start goal sp fuel (new : AStar St Ct Cost Pos)
      = nextTrace m start goal sp fuel (seedState m start goal) := by
  cases fuel with
  | zero => rfl
  | succ fuel => rfl

/-- C3 (amended): on a fresh engine with the same deterministic model, start,
goal and sampler, when the start does not already satisfy `converge`, a single
`optimize` run and repeated `next_trajectory` calls ending in a final result
agree exactly: the same final Trajectory, and the same sequence of popped
(and hence expanded) nodes; when `converge(start, goal)` already holds, both
return the same single-state zero-cost Trajectory, but `optimize`
short-circuits popping nothing while the `next_trajectory` run pops the
seeded start node once. -/
theorem c3_amended (m : Model St Ct Cost Pos) (start goal : St)
    (sp : Model St Ct Cost Pos → St → List Ct) (fuel : Nat) :
    (m.converge start goal = false →
       (∀ t, optimize m start goal sp fuel (new : AStar St Ct Cost Pos)
               = some (PathResult.final t)
             ↔ iterateNext m start goal sp fuel (new : AStar St Ct Cost Pos)
               = some (PathResult.final t))
       ∧ (∀ t, optimize m start goal sp fuel (new : AStar St Ct Cost Pos)
               = some (PathResult.final t)
             → optimizePops m start goal sp fuel (new : AStar St Ct Cost Pos)
               = nextTrace m start goal sp fuel (new : AStar St Ct Cost Pos)))
    ∧ (m.converge start goal = true →
       optimize m start goal sp fuel (new : AStar St Ct Cost Pos)
           = some (PathResult.final ⟨default, [(start, default)]⟩)
       ∧ iterateNext m start goal sp (fuel + 1) (new : AStar St Ct Cost Pos)
           = some (PathResult.final ⟨default, [(start, default)]⟩)
       ∧ optimizePops m start goal sp fuel (new : AStar St Ct Cost Pos) = []
       ∧ nextTrace m start goal sp (fuel + 1) (new : AStar St Ct Cost Pos)
           = [seedNode m start goal]) := by
  constructor
  · intro hcv
    have hSO : SeedOnly m start goal (seedState m start goal) := by
      intro _
      exact ⟨rfl, Or.inr rfl⟩
    have hne : ((seedState m start goal : AStar St Ct Cost Pos).parent_map.isEmpty
        && (seedState m start goal : AStar St Ct Cost Pos).queue.isEmpty) = false := rfl
    obtain ⟨hiff, htr⟩ := loopSim m start goal sp fuel (seedState m start goal) hSO hne
    have hopt : optimize m start goal sp fuel (new : AStar St Ct Cost Pos)
        = optimizeLoop m goal sp fuel (seedState m start goal) := by
      simp only [optimize, hcv, Bool.false_eq_true, if_false]
      rfl
    have hopT : optimizePops m start goal sp fuel (new : AStar St Ct Cost Pos)
        = optTrace m goal sp fuel (seedState m start goal) := by
      simp only [optimizePops, hcv, Bool.false_eq_true, if_false]
      rfl
    constructor
    · intro t
      rw [hopt, iterateNext_new]
      exact hiff t
    · intro t h
      rw [hopt] at h
      rw [hopT, nextTrace_new]
      exact htr t h
  · intro hcv
    refine ⟨?_, ?_, ?_, ?_⟩
    · simp [optimize, hcv]
    · simp only [iterateNext, next_trajectory]
      rw [show seedIfEmpty m start goal (new : AStar St Ct Cost Pos)
            = seedState m start goal from rfl,
          show popMin (seedState m start goal : AStar St Ct Cost Pos).queue
            = some (seedNode m start goal, ([] : List (Node St Ct Cost))) from rfl]
      simp only [step]
      rw [show m.converge (seedNode m start goal).state goal = true from hcv]
      rfl
    · simp [optimizePops, hcv]
    · simp only [nextTrace]
      rw [show seedIfEmpty m start goal (new : AStar St Ct Cost Pos)
            = seedState m start goal from rfl,
          show popMin (seedState m start goal : AStar St Ct Cost Pos).queue
            = some (seedNode m start goal, ([] : List (Node St Ct Cost))) from rfl]
      simp only [step]
      rw [show m.converge (seedNode m start goal).state goal = true from hcv]
      rfl

/-- Counterexample for C3 as stated: with a goal test that already accepts the
start, both modes return the same final Trajectory, but `optimize` pops no
node while the `next_trajectory` run pops the seeded start node, so the popped
sequences differ. -/
theorem c3_counterexample :
    optimize Mc 0 0 sp1 5 (new : AStar Nat Nat Nat Nat)
      = some (PathResult.final ⟨0, [(0, 0)]⟩)
    ∧ iterateNext Mc 0 0 sp1 5 (new : AStar Nat Nat Nat Nat)
      = some (PathResult.final ⟨0, [(0, 0)]⟩)
    ∧ optimizePops Mc 0 0 sp1 5 (new : AStar Nat Nat Nat Nat) = []
    ∧ nextTrace Mc 0 0 sp1 5 (new : AStar Nat Nat Nat Nat) = [seedNode Mc 0 0]
    ∧ ([] : List (Node Nat Nat Nat)) ≠ [seedNode Mc 0 0] :=
  ⟨by decide, by decide, by decide, by decide, by decide⟩

/-- Witness for C3 (amended): both hypotheses discharged at concrete models,
with the concrete equal final trajectories and equal pop sequences. -/
theorem c3_amended_witness :
    iterateNext M1 0 2 sp1 3 (new : AStar Nat Nat Nat Nat)
      = some (PathResult.final ⟨2, [(0, 0), (1, 1), (2, 1)]⟩)
    ∧ optimizePops M1 0 2 sp1 3 (new : AStar Nat Nat Nat Nat)
      = nextTrace M1 0 2 sp1 3 (new : AStar Nat Nat Nat Nat)
    ∧ iterateNext Mc 0 0 sp1 4 (new : AStar Nat Nat Nat Nat)
      = some (PathResult.final ⟨0, [(0, 0)]⟩) := by
  have h1 := (c3_amended M1 0 2 sp1 3).1 (by decide)
  have h2 := (c3_amended Mc 0 0 sp1 3).2 (by decide)
  exact ⟨(h1.1 ⟨2, [(0, 0), (1, 1), (2, 1)]⟩).mp (by decide),
         h1.2 ⟨2, [(0, 0), (1, 1), (2, 1)]⟩ (by decide),
         h2.2.1⟩

end AStarSpec

